import Mathlib

/-!
Verification development for the warnsum compiler-warning summarizer.

The Rust source (src/lib.rs) is shallowly embedded below:
machine integers (the i16 counters) are modelled as mathematical
integers together with an explicit two's-complement wrap at 16 bits,
Rust HashMaps are modelled as association lists with pairwise distinct
keys, std::path components are modelled after the Unix rules of
std::path::Components, and the warning-matching regular expression is
modelled by a backtracking matcher specialised to that one pattern
(every quantified subexpression of the pattern ranges over a single
character class, so greedy matching with backtracking is implemented
by a continuation-passing scan).  Character classes are modelled at
ASCII granularity.
-/

/-- Two's-complement wrap-around of an integer into the i16 range,
modelling Rust release-mode overflow behaviour of i16 arithmetic. -/
def wrap16 (x : Int) : Int :=
  (x + 32768) % 65536 - 32768

/-- A Rust HashMap with i16 values is modelled as an association list
whose keys are pairwise distinct. -/
abbrev CountMap (K : Type) := List (K × Int)

/-- Lookup with default 0, modelling rhs.get(k).copied().unwrap_or(0). -/
def getD {K : Type} [DecidableEq K] : CountMap K → K → Int
  | [], _ => 0
  | (a, v) :: rest, k => if a = k then v else getD rest k

/-- The keys of a count mapping. -/
def keysOf {K : Type} (m : CountMap K) : List K :=
  m.map Prod.fst

/-- Modelling *map.entry(k).or_insert(0) += d (equally or_default with
subtraction): adjust the entry of k by d with i16 wrap-around, inserting
the key first when it is absent. -/
def insertAdd {K : Type} [DecidableEq K] : CountMap K → K → Int → CountMap K
  | [], k, d => [(k, wrap16 d)]
  | (a, v) :: rest, k, d =>
      if a = k then (a, wrap16 (v + d)) :: rest
      else (a, v) :: insertAdd rest k d

/-- Mathematical (unwrapped) sum of the values of a count mapping. -/
def sumValues {K : Type} (m : CountMap K) : Int :=
  m.foldl (fun a e => a + e.2) 0

/-- The i16 sum warnings.values().sum thereof: successive wrapping
additions of in-range values agree with wrapping the exact sum once. -/
def sum16 {K : Type} (m : CountMap K) : Int :=
  wrap16 (sumValues m)

/-- A raw log text with one warning whose excerpt line carries 32768
keyword occurrences. -/
def c1content : String :=
  "f:1:1: warning: x [-Wy]\n  1 |"
    ++ String.mk ((List.replicate 32768 [' ', 'a', 'a']).flatten)

/-- Translated from count_warning_fn (src/lib.rs lines 59-72): fold the key
list into a mapping, incrementing a counter per key starting from zero. -/
def countList {K : Type} [DecidableEq K] (l : List K) : CountMap K :=
  l.foldl (fun m k => insertAdd m k 1) []

/-- A component of a Unix path, after std::path::Components normalisation
(the Prefix variant is Windows-only and omitted). -/
inductive PathComp : Type
  | rootDir : PathComp
  | curDir : PathComp
  | parentDir : PathComp
  | normal : String → PathComp
deriving DecidableEq

/-- Split a character list on the slash separator, keeping empty pieces. -/
def splitSlashAux : List Char → List Char → List (List Char)
  | acc, [] => [acc.reverse]
  | acc, c :: cs =>
      if c = '/' then acc.reverse :: splitSlashAux [] cs
      else splitSlashAux (c :: acc) cs

/-- Turn the slash-separated pieces into components: empty pieces are
skipped, a dot piece yields CurDir only in leading position of a
relative path, dot-dot yields ParentDir, anything else is Normal. -/
def compsOfItems : Bool → List (List Char) → List PathComp
  | _, [] => []
  | allowCur, x :: xs =>
      if x = [] then compsOfItems false xs
      else if x = [ '.' ] then
        (if allowCur then [PathComp.curDir] else []) ++ compsOfItems false xs
      else if x = [ '.', '.' ] then PathComp.parentDir :: compsOfItems false xs
      else PathComp.normal (String.mk x) :: compsOfItems false xs

/-- Parse a path string into its components, following the Unix rules of
std::path::Components: a leading slash is the root, empty and interior
dot pieces vanish, a leading dot piece of a relative path is kept. -/
def parsePath (cs : List Char) : List PathComp :=
  let hasRoot : Bool :=
    match cs with
    | c :: _ => c = '/'
    | [] => false
  (if hasRoot then [PathComp.rootDir] else [])
    ++ compsOfItems (!hasRoot) (splitSlashAux [] cs)

/-- Translated from std Path::parent: drop the last component, unless the
path has no components or ends at the root. -/
def parentComps (p : List PathComp) : Option (List PathComp) :=
  match p.getLast? with
  | none => none
  | some PathComp.rootDir => none
  | some _ => some p.dropLast

/-- Translated from std Path::strip_prefix by components: remove base as a
leading component run, or fail. -/
def stripPfx (p base : List PathComp) : Option (List PathComp) :=
  if base.isPrefixOf p then some (p.drop base.length) else none

/-- Text of one non-root path component. -/
def dispOne : PathComp → String
  | PathComp.rootDir => "/"
  | PathComp.curDir => "."
  | PathComp.parentDir => ".."
  | PathComp.normal s => s

/-- Slash-joined text of a run of non-root components. -/
def dispTail : List PathComp → String
  | [] => ""
  | [c] => dispOne c
  | c :: rest => dispOne c ++ "/" ++ dispTail rest

/-- Canonical text rendering of a parsed path, modelling Path::display on
the normalised component list. -/
def dispPath (p : List PathComp) : String :=
  match p with
  | [] => ""
  | PathComp.rootDir :: rest => "/" ++ dispTail rest
  | rest => dispTail rest

/-- ASCII model of the regex word class backslash-w. -/
def isWordChar (c : Char) : Bool := c.isAlpha || c.isDigit || c = '_'

/-- First character class of the word pattern: a letter or underscore. -/
def isAlphaUnd (c : Char) : Bool := c.isAlpha || c = '_'

/-- One left-to-right scan collecting the maximal word-character runs, the
accumulator holding the current run reversed.  This models find_iter of
the word pattern: a run is a match exactly when the boundary conditions
hold, i.e. at maximal runs. -/
def runsAux : List Char → List Char → List (List Char)
  | acc, [] => if acc.isEmpty then [] else [acc.reverse]
  | acc, c :: cs =>
      if isWordChar c then runsAux (c :: acc) cs
      else if acc.isEmpty then runsAux [] cs
      else acc.reverse :: runsAux [] cs

/-- A run is a token of the word pattern when it has at least two
characters and starts with a letter or underscore. -/
def isIdentRun : List Char → Bool
  | c :: _ :: _ => isAlphaUnd c
  | _ => false

/-- The matches of find_iter of the word pattern over a text. -/
def tokenRuns (cs : List Char) : List (List Char) :=
  (runsAux [] cs).filter isIdentRun

/-- Translated from make_keywords (src/lib.rs lines 37-57): word-pattern
matches, kept when at least keyword_len long and not an ignored keyword,
in match order with duplicates preserved. -/
def make_keywords (text : String) (keyword_len : Nat) (ignored_keywords : List String) :
    List String :=
  (((tokenRuns text.data).filter (fun r => keyword_len ≤ r.length)).map
      (fun r => String.mk r)).filter (fun w => !(ignored_keywords.contains w))

/-- Grouping of a text into maximal runs of characters of equal
word-character status; spec-level notion of maximal run. -/
def chunkRuns : List Char → List (List Char)
  | [] => []
  | c :: cs =>
      match chunkRuns cs with
      | [] => [[c]]
      | [] :: rest => [c] :: [] :: rest
      | (d :: ds) :: rest =>
          if isWordChar c = isWordChar d then (c :: d :: ds) :: rest
          else [c] :: (d :: ds) :: rest

/-- Does a run start with a word character. -/
def headWord : List Char → Bool
  | [] => false
  | c :: _ => isWordChar c

/-- Modelled from the spec, section 4.2: find the maximal identifier-shaped
runs (starts with a letter or underscore, at least 2 characters), keep
those of length at least min_len, drop exact matches of ignored keywords,
preserving order and duplicates. -/
def keywordsSpec (text : String) (min_len : Nat) (ignored : List String) : List String :=
  (((chunkRuns text.data).filter isIdentRun).filter (fun r => min_len ≤ r.length)).map
      (fun r => String.mk r) |>.filter (fun w => !(ignored.contains w))

/-- The regex dot class: any character except newline. -/
def isDotChar (c : Char) : Bool := !(c = '\n')

/-- ASCII model of the regex digit class. -/
def isDigitChar (c : Char) : Bool := c.isDigit

/-- ASCII model of the regex whitespace class. -/
def isSpaceChar (c : Char) : Bool :=
  c = ' ' || c = '\t' || c = '\n' || c = '\r' || c = '\x0b' || c = '\x0c'

/-- Match a literal character sequence, then continue. -/
def litM {A : Type} (lit : List Char) (s : List Char) (k : List Char → Option A) : Option A :=
  if lit.isPrefixOf s then k (s.drop lit.length) else none

/-- Match one character of a class, then continue. -/
def clsM {A : Type} (cls : Char → Bool) (s : List Char) (k : List Char → Option A) : Option A :=
  match s with
  | [] => none
  | c :: rest => if cls c then k rest else none

/-- Greedy star over a single-character class with backtracking: consume as
many class characters as possible, retrying the continuation at ever
shorter runs until it succeeds. -/
def starFrom {A : Type} (cls : Char → Bool) : List Char → (List Char → Option A) → Option A
  | [], k => k []
  | c :: rest, k =>
      if cls c then
        match starFrom cls rest k with
        | some r => some r
        | none => k (c :: rest)
      else k (c :: rest)

/-- Greedy plus over a single-character class: one mandatory character,
then a greedy star. -/
def plusFrom {A : Type} (cls : Char → Bool) (s : List Char) (k : List Char → Option A) :
    Option A :=
  match s with
  | [] => none
  | c :: rest => if cls c then starFrom cls rest k else none

/-- The capture groups of one match of the warning pattern
(src/lib.rs lines 128-137). -/
structure Caps : Type where
  file : List Char
  text_before : Option (List Char)
  name : List Char
  text_after : Option (List Char)
deriving DecidableEq

/-- The optional gfortran excerpt group: newline, blank line, indented
numbered source line, and a marker line, each newline-terminated. -/
def matchTB {A : Type} (s : List Char) (k : List Char → Option A) : Option A :=
  litM [ '\n', '\n' ] s (fun s1 =>
  plusFrom isSpaceChar s1 (fun s2 =>
  plusFrom isDigitChar s2 (fun s3 =>
  litM [ ' ', '|' ] s3 (fun s4 =>
  starFrom isDotChar s4 (fun s5 =>
  litM [ '\n' ] s5 (fun s6 =>
  starFrom isDotChar s6 (fun s7 =>
  litM [ '\n' ] s7 k)))))))

/-- The optional gcc or clang excerpt group: newline then an indented
numbered source line. -/
def matchTA {A : Type} (s : List Char) (k : List Char → Option A) : Option A :=
  litM [ '\n' ] s (fun s1 =>
  plusFrom isSpaceChar s1 (fun s2 =>
  plusFrom isDigitChar s2 (fun s3 =>
  litM [ ' ', '|' ] s3 (fun s4 =>
  starFrom isDotChar s4 k))))

/-- The part of the warning pattern from the case-insensitive warning
marker on: the diagnostic text, the bracketed flag name, and optionally
the trailing excerpt.  Returns the captures and the rest of the input. -/
def matchTail (file : List Char) (tb : Option (List Char)) (s8 : List Char) :
    Option (Caps × List Char) :=
  clsM (fun c => c = 'w' || c = 'W') s8 (fun s9 =>
  litM ("arning:".data) s9 (fun s10 =>
  starFrom isDotChar s10 (fun s11 =>
  litM ("[-W".data) s11 (fun s12 =>
  starFrom isDotChar s12 (fun s13 =>
    let name := s12.take (s12.length - s13.length)
    litM [ ']' ] s13 (fun s14 =>
      match matchTA s14 (fun s15 => some (s14.take (s14.length - s15.length), s15)) with
      | some (cap, s15) =>
          some ({ file := file, text_before := tb, name := name, text_after := some cap }, s15)
      | none =>
          some ({ file := file, text_before := tb, name := name, text_after := none }, s14)))))))

/-- One attempt of the full warning pattern at the given position,
in the preference order of a backtracking engine: the file group, the
line and column numbers, optional whitespace, the optional leading
excerpt (preferred present), then the warning marker and tail. -/
def matchWarnAt (s0 : List Char) : Option (Caps × List Char) :=
  starFrom isDotChar s0 (fun s1 =>
    let file := s0.take (s0.length - s1.length)
    litM [ ':' ] s1 (fun s2 =>
    plusFrom isDigitChar s2 (fun s3 =>
    litM [ ':' ] s3 (fun s4 =>
    plusFrom isDigitChar s4 (fun s5 =>
    litM [ ':' ] s5 (fun s6 =>
    starFrom isSpaceChar s6 (fun s7 =>
      match matchTB s7 (fun s8 =>
          matchTail file (some (s7.take (s7.length - s8.length))) s8) with
      | some r => some r
      | none => matchTail file none s7)))))))

/-- Leftmost match: try the pattern at each successive start position. -/
def findFrom : List Char → Option (Caps × List Char)
  | [] => matchWarnAt []
  | c :: t =>
      match matchWarnAt (c :: t) with
      | some r => some r
      | none => findFrom t

/-- Iterate non-overlapping matches left to right, as captures_iter does;
every match consumes at least one character, so the input length bounds
the number of iterations. -/
def extractLoop : Nat → List Char → List Caps
  | 0, _ => []
  | fuel + 1, s =>
      match findFrom s with
      | none => []
      | some (caps, rest) => caps :: extractLoop fuel rest

/-- All matches of the warning pattern over the content. -/
def extractWarnings (content : List Char) : List Caps :=
  extractLoop (content.length + 1) content

/-- A compiler warning (src/lib.rs lines 8-17): its flag name minus the
leading -W, its file as parsed path components, and its keywords. -/
structure Warning : Type where
  name : String
  file : List PathComp
  keywords : List String
deriving DecidableEq

/-- Translated from the map closure of WarningCollection::new
(src/lib.rs lines 143-161): build one Warning from the captures, taking
the trailing excerpt in preference to the leading one as keyword source,
and stripping the current directory prefix from the file when present. -/
def warningOfCapture (cwd : List PathComp) (keyword_len : Nat)
    (ignored_keywords : List String) (caps : Caps) : Warning :=
  { name := String.mk caps.name
  , file :=
      let filename := parsePath caps.file
      (stripPfx filename cwd).getD filename
  , keywords :=
      match caps.text_after with
      | some t => make_keywords (String.mk t) keyword_len ignored_keywords
      | none =>
          match caps.text_before with
          | some t => make_keywords (String.mk t) keyword_len ignored_keywords
          | none => [] }

/-- Translated from count_warning_fn (src/lib.rs lines 59-72). -/
def count_warning_fn {K : Type} [DecidableEq K] (warnings : List Warning)
    (f : Warning → K) : CountMap K :=
  warnings.foldl (fun m w => insertAdd m (f w) 1) []

/-- Translated from count_warning_types (src/lib.rs lines 74-76). -/
def count_warning_types (warnings : List Warning) : CountMap String :=
  count_warning_fn warnings (fun w => w.name)

/-- Translated from count_warning_files (src/lib.rs lines 78-80). -/
def count_warning_files (warnings : List Warning) : CountMap (List PathComp) :=
  count_warning_fn warnings (fun w => w.file)

/-- The directory key of a warning: its file's parent, or the file itself
when it has no parent. -/
def dirKey (w : Warning) : List PathComp :=
  (parentComps w.file).getD w.file

/-- Translated from count_warning_directories (src/lib.rs lines 82-86). -/
def count_warning_directories (warnings : List Warning) : CountMap (List PathComp) :=
  count_warning_fn warnings dirKey

/-- Translated from count_warning_keywords (src/lib.rs lines 88-101): one
increment per keyword occurrence over the flattened keyword lists. -/
def count_warning_keywords (warnings : List Warning) : CountMap String :=
  ((warnings.map (fun w => w.keywords)).flatten).foldl (fun m k => insertAdd m k 1) []

/-- A complete summary of one log (src/lib.rs lines 20-35). -/
structure WarningCollection : Type where
  warnings : List Warning
  names : CountMap String
  files : CountMap (List PathComp)
  directories : CountMap (List PathComp)
  keywords : CountMap String
deriving DecidableEq

/-- Translated from WarningCollection::new (src/lib.rs lines 122-176).
The current working directory, which the source reads from the process
environment via current_dir, is an explicit parameter here. -/
def WarningCollection.new (content : String) (keyword_len : Nat)
    (ignored_keywords : List String) (cwd : String) : WarningCollection :=
  let cwdComps := parsePath cwd.data
  let result := (extractWarnings content.data).map
      (warningOfCapture cwdComps keyword_len ignored_keywords)
  { warnings := result
  , names := count_warning_types result
  , files := count_warning_files result
  , directories := count_warning_directories result
  , keywords := count_warning_keywords result }

/-- Translated from diff_hashmaps (src/lib.rs lines 188-199): start from
lhs, subtract every count of rhs, and drop the keys whose resulting value
is exactly zero. -/
def diff_hashmaps {K : Type} [DecidableEq K] (lhs rhs : CountMap K) : CountMap K :=
  (rhs.foldl (fun m e => insertAdd m e.1 (-e.2)) lhs).filter (fun e => !(e.2 = 0))

/-- The diff of two collections (src/lib.rs lines 178-186), dimensionwise. -/
structure WarningCollectionDiff : Type where
  names : CountMap String
  files : CountMap (List PathComp)
  directories : CountMap (List PathComp)
  keywords : CountMap String
deriving DecidableEq

/-- Translated from WarningCollection::diff (src/lib.rs lines 178-185). -/
def WarningCollection.diff (self other : WarningCollection) : WarningCollectionDiff :=
  { names := diff_hashmaps self.names other.names
  , files := diff_hashmaps self.files other.files
  , directories := diff_hashmaps self.directories other.directories
  , keywords := diff_hashmaps self.keywords other.keywords }

/-- Total number of keyword occurrences across a warning sequence. -/
def totalKeywordCount (warnings : List Warning) : Nat :=
  ((warnings.map (fun w => w.keywords)).flatten).length

/-- Strict lexicographic order on lists from a strict element order. -/
def lexLT {A : Type} [DecidableEq A] (ltE : A → A → Bool) : List A → List A → Bool
  | [], [] => false
  | [], _ :: _ => true
  | _ :: _, [] => false
  | a :: as2, b :: bs => if a = b then lexLT ltE as2 bs else ltE a b

/-- Reflexive lexicographic order on lists from a strict element order. -/
def lexLE {A : Type} [DecidableEq A] (ltE : A → A → Bool) : List A → List A → Bool
  | [], _ => true
  | _ :: _, [] => false
  | a :: as2, b :: bs => if a = b then lexLE ltE as2 bs else ltE a b

/-- Strict order on characters by code point, the Rust byte order of
UTF-8 strings (UTF-8 byte order agrees with code point order). -/
def charLT (a b : Char) : Bool := decide (a < b)

/-- Rust String Ord, non-strict: byte-lexicographic. -/
def strLeB (a b : String) : Bool := lexLE charLT a.data b.data

/-- Rust String Ord, strict: byte-lexicographic. -/
def strLtB (a b : String) : Bool := lexLT charLT a.data b.data

/-- Variant rank of a path component, after the declaration order of
std::path::Component in its derived Ord. -/
def pcRank : PathComp → Nat
  | PathComp.rootDir => 0
  | PathComp.curDir => 1
  | PathComp.parentDir => 2
  | PathComp.normal _ => 3

/-- Strict order on path components after the derived Ord of
std::path::Component. -/
def pcLT (a b : PathComp) : Bool :=
  match a, b with
  | PathComp.normal s, PathComp.normal t => strLtB s t
  | _, _ => decide (pcRank a < pcRank b)

/-- Rust Path Ord, non-strict: lexicographic by components. -/
def pathLeB (a b : List PathComp) : Bool := lexLE pcLT a b

/-- The sort comparator of make_warning_counts (src/lib.rs lines 243-249)
as a non-strict pair order: count descending, ties by key ascending. -/
def pairLE {K : Type} (leK : K → K → Bool) (a b : K × Int) : Bool :=
  if a.2 = b.2 then leK a.1 b.1 else decide (b.2 < a.2)

/-- Entries sorted by the comparator; sort_by is a stable sort, modelled
by insertion sort. -/
def sortEntries {K : Type} (leK : K → K → Bool) (m : CountMap K) : CountMap K :=
  List.insertionSort (fun a b => pairLE leK a b = true) m

/-- Right-align a string in a field of the given width, as the Rust
numeric format specifier does. -/
def rightAlign (w : Nat) (s : String) : String :=
  String.mk (List.replicate (w - s.length) ' ') ++ s

/-- Left-align a string in a field of the given width, as the Rust
string format specifier does. -/
def leftAlign (w : Nat) (s : String) : String :=
  s ++ String.mk (List.replicate (w - s.length) ' ')

/-- Floor of the base-10 logarithm by repeated division, with enough fuel;
the fuel keeps the recursion structural. -/
def ilog10F : Nat → Nat → Nat
  | 0, _ => 0
  | fuel + 1, n => if n < 10 then 0 else ilog10F fuel (n / 10) + 1

/-- Translated from line 257 of src/lib.rs: the count column width is
ilog10 of the i16 sum of the counts, plus one.  Meaningful for positive
sums; the caller models the ilog10 panic on other sums. -/
def min_width {K : Type} (warnings : CountMap K) : Nat :=
  ilog10F (sum16 warnings).toNat (sum16 warnings).toNat + 1

/-- Translated from make_warning_counts (src/lib.rs lines 230-283),
parameterised by the key order and the key display, with the ilog10
panic on a non-positive i16 count sum modelled as none. -/
def make_warning_counts {K : Type} (leK : K → K → Bool) (disp : K → String)
    (warnings : CountMap K) (top_n : Nat) (use_total_items : Bool) : Option String :=
  if warnings.isEmpty then some "" else
  let count_vec := sortEntries leK warnings
  let max_length := if top_n = 0 then count_vec.length else min count_vec.length top_n
  if sum16 warnings ≤ 0 then none else
  let mw := min_width warnings
  let result := (count_vec.take max_length).foldl
      (fun acc line => acc ++ rightAlign mw (toString line.2) ++ "  " ++ disp line.1 ++ "\n") ""
  let extra :=
    if count_vec.length > top_n ∧ top_n ≠ 0 then
      leftAlign mw " " ++ "  (+" ++ toString (count_vec.length - top_n) ++ " more items)\n"
    else ""
  let total : Int :=
    if use_total_items then wrap16 (Int.ofNat count_vec.length) else sum16 warnings
  let total_line := rightAlign mw (toString total) ++ "  Total"
  some (result ++ extra ++ total_line)

/-- Translated from the Display impl of WarningCollection (src/lib.rs
lines 201-228): the four labeled sections, the Warnings section always
untruncated, the other three truncated to top_n, which defaults to 10
when no precision is given. -/
def fmtDisplay (col : WarningCollection) (prec : Option Nat) : Option String :=
  let top_n := prec.getD 10
  match make_warning_counts strLeB (fun s => s) col.names 0 false,
        make_warning_counts pathLeB dispPath col.files top_n true,
        make_warning_counts pathLeB dispPath col.directories top_n true,
        make_warning_counts strLeB (fun s => s) col.keywords top_n true with
  | some names, some files, some directories, some keywords =>
      some ("Warnings:\n" ++ names ++ "\n\nFiles:\n" ++ files ++ "\n\nDirectories:\n"
        ++ directories ++ "\n\nKeywords:\n" ++ keywords ++ "\n")
  | _, _, _, _ => none

/-- Modelled from the claim of C4: the same rendering but with the top_n
truncation also applied to the Warnings section. -/
def fmtDisplayClaimC4 (col : WarningCollection) (prec : Option Nat) : Option String :=
  let top_n := prec.getD 10
  match make_warning_counts strLeB (fun s => s) col.names top_n false,
        make_warning_counts pathLeB dispPath col.files top_n true,
        make_warning_counts pathLeB dispPath col.directories top_n true,
        make_warning_counts strLeB (fun s => s) col.keywords top_n true with
  | some names, some files, some directories, some keywords =>
      some ("Warnings:\n" ++ names ++ "\n\nFiles:\n" ++ files ++ "\n\nDirectories:\n"
        ++ directories ++ "\n\nKeywords:\n" ++ keywords ++ "\n")
  | _, _, _, _ => none

theorem wrap16_eq_self (x : Int) (h1 : -32768 ≤ x) (h2 : x ≤ 32767) :
    wrap16 x = x := by
  unfold wrap16
  omega

theorem wrap16_add (x y : Int) : wrap16 (wrap16 x + y) = wrap16 (x + y) := by
  unfold wrap16
  omega

theorem getD_cons_self {K : Type} [DecidableEq K] (a : K) (v : Int) (rest : CountMap K) :
    getD ((a, v) :: rest) a = v := by
  simp [getD]

theorem getD_cons_ne {K : Type} [DecidableEq K] {a k : K} (h : ¬ a = k)
    (v : Int) (rest : CountMap K) :
    getD ((a, v) :: rest) k = getD rest k := by
  simp [getD, h]

theorem insertAdd_cons_self {K : Type} [DecidableEq K] (a : K) (v : Int)
    (rest : CountMap K) (d : Int) :
    insertAdd ((a, v) :: rest) a d = (a, wrap16 (v + d)) :: rest := by
  simp [insertAdd]

theorem insertAdd_cons_ne {K : Type} [DecidableEq K] {a k : K} (h : ¬ a = k)
    (v : Int) (rest : CountMap K) (d : Int) :
    insertAdd ((a, v) :: rest) k d = (a, v) :: insertAdd rest k d := by
  simp [insertAdd, h]

theorem sumValues_cons {K : Type} (e : K × Int) (rest : CountMap K) :
    sumValues (e :: rest) = e.2 + sumValues rest := by
  have base : ∀ (l : List (K × Int)) (a : Int), List.foldl (fun x e => x + e.2) a l
      = a + List.foldl (fun x e => x + e.2) 0 l := by
    intro l
    induction l with
    | nil => intro a; simp
    | cons f rest2 ih =>
        intro a
        simp only [List.foldl_cons]
        rw [ih (a + f.2), ih (0 + f.2)]
        ring
  simp only [sumValues, List.foldl_cons]
  rw [base rest (0 + e.2)]
  ring

theorem insertAdd_getD {K : Type} [DecidableEq K] (m : CountMap K) (k j : K) (d : Int) :
    getD (insertAdd m k d) j = if j = k then wrap16 (getD m k + d) else getD m j := by
  induction m with
  | nil =>
      by_cases h : j = k
      · subst h; simp [insertAdd, getD]
      · have h2 : ¬ k = j := fun hh => h hh.symm
        simp [insertAdd, getD, h, h2]
  | cons e rest ih =>
      obtain ⟨a, v⟩ := e
      by_cases hak : a = k
      · subst hak
        rw [insertAdd_cons_self]
        by_cases hja : j = a
        · subst hja
          rw [getD_cons_self, getD_cons_self, if_pos rfl]
        · have h2 : ¬ a = j := fun hh => hja hh.symm
          rw [getD_cons_ne h2, if_neg hja, getD_cons_ne h2]
      · rw [insertAdd_cons_ne hak]
        by_cases haj : a = j
        · subst haj
          have hjk : ¬ a = k := hak
          rw [getD_cons_self, if_neg hjk, getD_cons_self]
        · rw [getD_cons_ne haj, getD_cons_ne haj, getD_cons_ne hak, ih]

theorem insertAdd_sum {K : Type} [DecidableEq K] (m : CountMap K) (k : K) (d : Int) :
    sumValues (insertAdd m k d) = sumValues m - getD m k + wrap16 (getD m k + d) := by
  induction m with
  | nil => simp [insertAdd, sumValues, getD]
  | cons e rest ih =>
      obtain ⟨a, v⟩ := e
      by_cases hak : a = k
      · subst hak
        rw [insertAdd_cons_self, getD_cons_self, sumValues_cons, sumValues_cons]
        ring
      · rw [insertAdd_cons_ne hak, getD_cons_ne hak, sumValues_cons, sumValues_cons, ih]
        ring

theorem keysOf_insertAdd {K : Type} [DecidableEq K] (m : CountMap K) (k : K) (d : Int) :
    keysOf (insertAdd m k d) = if k ∈ keysOf m then keysOf m else keysOf m ++ [k] := by
  induction m with
  | nil => simp [insertAdd, keysOf]
  | cons e rest ih =>
      obtain ⟨a, v⟩ := e
      by_cases hak : a = k
      · subst hak
        rw [insertAdd_cons_self]
        simp [keysOf]
      · rw [insertAdd_cons_ne hak]
        have hka : ¬ k = a := fun hh => hak hh.symm
        have hcons : keysOf ((a, v) :: insertAdd rest k d) = a :: keysOf (insertAdd rest k d) := rfl
        have hcons2 : keysOf ((a, v) :: rest) = a :: keysOf rest := rfl
        by_cases hm : k ∈ keysOf rest
        · have hm2 : k ∈ keysOf ((a, v) :: rest) := by
            rw [hcons2]
            exact List.mem_cons_of_mem a hm
          rw [hcons, ih, if_pos hm, if_pos hm2, hcons2]
        · have hm2 : k ∉ keysOf ((a, v) :: rest) := by
            rw [hcons2]
            simp [hka, hm]
          rw [hcons, ih, if_neg hm, if_neg hm2, hcons2]
          rfl

theorem nodup_keysOf_insertAdd {K : Type} [DecidableEq K] {m : CountMap K}
    (h : (keysOf m).Nodup) (k : K) (d : Int) :
    (keysOf (insertAdd m k d)).Nodup := by
  rw [keysOf_insertAdd]
  by_cases hm : k ∈ keysOf m
  · simpa [hm] using h
  · simp only [hm, if_false]
    rw [List.nodup_append]
    exact ⟨h, List.nodup_singleton k, by simpa using hm⟩

theorem getD_eq_zero_of_not_mem {K : Type} [DecidableEq K] {m : CountMap K} {k : K}
    (h : k ∉ keysOf m) : getD m k = 0 := by
  induction m with
  | nil => rfl
  | cons e rest ih =>
      obtain ⟨a, v⟩ := e
      simp only [keysOf, List.map_cons, List.mem_cons] at h
      push_neg at h
      have hak : ¬ a = k := fun hh => h.1 hh.symm
      rw [getD_cons_ne hak]
      exact ih (by simpa [keysOf] using h.2)

theorem mem_keysOf_of_getD_ne {K : Type} [DecidableEq K] {m : CountMap K} {k : K}
    (h : getD m k ≠ 0) : k ∈ keysOf m := by
  by_contra hmem
  exact h (getD_eq_zero_of_not_mem hmem)

theorem sumValues_nonneg {K : Type} {m : CountMap K} (h : ∀ e ∈ m, 0 ≤ e.2) :
    0 ≤ sumValues m := by
  induction m with
  | nil => simp [sumValues]
  | cons e rest ih =>
      rw [sumValues_cons]
      have h1 := h e (List.mem_cons_self e rest)
      have h2 := ih (fun f hf => h f (List.mem_cons_of_mem e hf))
      omega

theorem getD_nonneg {K : Type} [DecidableEq K] {m : CountMap K} (k : K)
    (h : ∀ e ∈ m, 0 ≤ e.2) : 0 ≤ getD m k := by
  induction m with
  | nil => simp [getD]
  | cons e rest ih =>
      obtain ⟨a, v⟩ := e
      by_cases hak : a = k
      · subst hak
        rw [getD_cons_self]
        exact h (a, v) (List.mem_cons_self _ _)
      · rw [getD_cons_ne hak]
        exact ih (fun f hf => h f (List.mem_cons_of_mem _ hf))

theorem getD_le_sumValues {K : Type} [DecidableEq K] {m : CountMap K} (k : K)
    (h : ∀ e ∈ m, 0 ≤ e.2) : getD m k ≤ sumValues m := by
  induction m with
  | nil => simp [getD, sumValues]
  | cons e rest ih =>
      obtain ⟨a, v⟩ := e
      have hv : 0 ≤ v := h (a, v) (List.mem_cons_self _ _)
      have hrest : ∀ e ∈ rest, 0 ≤ e.2 := fun f hf => h f (List.mem_cons_of_mem _ hf)
      have hs : 0 ≤ sumValues rest := sumValues_nonneg hrest
      rw [sumValues_cons]
      by_cases hak : a = k
      · subst hak
        rw [getD_cons_self]
        omega
      · rw [getD_cons_ne hak]
        have := ih hrest
        omega

theorem insertAdd_mem {K : Type} [DecidableEq K] {m : CountMap K} {k : K} {d : Int}
    {e : K × Int} (he : e ∈ insertAdd m k d) :
    e ∈ m ∨ e = (k, wrap16 (getD m k + d)) := by
  induction m with
  | nil =>
      simp only [insertAdd] at he
      simp only [List.mem_singleton] at he
      right
      simpa [getD] using he
  | cons f rest ih =>
      obtain ⟨a, v⟩ := f
      by_cases hak : a = k
      · subst hak
        rw [insertAdd_cons_self] at he
        rcases List.mem_cons.mp he with h1 | h2
        · right
          rw [getD_cons_self]
          exact h1
        · left
          exact List.mem_cons_of_mem _ h2
      · rw [insertAdd_cons_ne hak] at he
        rcases List.mem_cons.mp he with h1 | h2
        · left
          rw [h1]
          exact List.mem_cons_self _ _
        · rcases ih h2 with h3 | h4
          · exact Or.inl (List.mem_cons_of_mem _ h3)
          · right
            rw [getD_cons_ne hak]
            exact h4

theorem countFold_sum {K : Type} [DecidableEq K] :
    ∀ (l : List K) (m : CountMap K), (∀ e ∈ m, 0 ≤ e.2) →
      sumValues m + l.length ≤ 32767 →
      sumValues (l.foldl (fun m k => insertAdd m k 1) m) = sumValues m + l.length
      ∧ ∀ e ∈ l.foldl (fun m k => insertAdd m k 1) m, 0 ≤ e.2 := by
  intro l
  induction l with
  | nil =>
      intro m hpos _
      exact ⟨by simp, hpos⟩
  | cons k rest ih =>
      intro m hpos hb
      simp only [List.length_cons] at hb
      have hg0 : 0 ≤ getD m k := getD_nonneg k hpos
      have hg1 : getD m k ≤ sumValues m := getD_le_sumValues k hpos
      have hw : wrap16 (getD m k + 1) = getD m k + 1 := by
        apply wrap16_eq_self <;> omega
      have hsum : sumValues (insertAdd m k 1) = sumValues m + 1 := by
        rw [insertAdd_sum, hw]
        omega
      have hpos2 : ∀ e ∈ insertAdd m k 1, 0 ≤ e.2 := by
        intro e he
        rcases insertAdd_mem he with h1 | h2
        · exact hpos e h1
        · rw [h2, hw]
          omega
      have hb2 : sumValues (insertAdd m k 1) + rest.length ≤ 32767 := by
        rw [hsum]
        omega
      have := ih (insertAdd m k 1) hpos2 hb2
      simp only [List.foldl_cons]
      constructor
      · rw [this.1, hsum]
        simp only [List.length_cons]
        omega
      · exact this.2

theorem countList_sum {K : Type} [DecidableEq K] (l : List K)
    (h : l.length ≤ 32767) :
    sumValues (countList l) = l.length := by
  have := countFold_sum l [] (by intro e he; cases he) (by simpa [sumValues] using h)
  simpa [countList, sumValues] using this.1

theorem getD_of_mem_nodup {K : Type} [DecidableEq K] {m : CountMap K} {k : K} {v : Int}
    (hm : (keysOf m).Nodup) (hmem : (k, v) ∈ m) : getD m k = v := by
  induction m with
  | nil => cases hmem
  | cons e rest ih =>
      obtain ⟨a, w⟩ := e
      have hcons : keysOf ((a, w) :: rest) = a :: keysOf rest := rfl
      rw [hcons] at hm
      rcases List.mem_cons.mp hmem with h1 | h2
      · injection h1 with h1a h1v
        subst h1a
        subst h1v
        exact getD_cons_self k v rest
      · have hk : k ∈ keysOf rest := List.mem_map_of_mem Prod.fst h2
        have hak : ¬ a = k := by
          intro hh
          subst hh
          exact (List.nodup_cons.mp hm).1 hk
        rw [getD_cons_ne hak]
        exact ih (List.nodup_cons.mp hm).2 h2

theorem mem_keysOf_iff {K : Type} {m : CountMap K} {k : K} :
    k ∈ keysOf m ↔ ∃ v, (k, v) ∈ m := by
  constructor
  · intro h
    rcases List.mem_map.mp h with ⟨e, he, hk⟩
    exact ⟨e.2, by rw [← hk]; exact he⟩
  · rintro ⟨v, hv⟩
    exact List.mem_map_of_mem Prod.fst hv

theorem foldSub_getD_not_mem {K : Type} [DecidableEq K] :
    ∀ (Y X : CountMap K) (k : K), k ∉ keysOf Y →
      getD (Y.foldl (fun m e => insertAdd m e.1 (-e.2)) X) k = getD X k := by
  intro Y
  induction Y with
  | nil => intro X k _; rfl
  | cons e rest ih =>
      intro X k hk
      have hcons : keysOf (e :: rest) = e.1 :: keysOf rest := rfl
      rw [hcons] at hk
      have hne : ¬ k = e.1 := fun hh => hk (hh ▸ List.mem_cons_self _ _)
      have hnm : k ∉ keysOf rest := fun hh => hk (List.mem_cons_of_mem _ hh)
      simp only [List.foldl_cons]
      rw [ih (insertAdd X e.1 (-e.2)) k hnm, insertAdd_getD, if_neg hne]

theorem foldSub_getD {K : Type} [DecidableEq K] :
    ∀ (Y X : CountMap K) (k : K), (keysOf Y).Nodup →
      getD (Y.foldl (fun m e => insertAdd m e.1 (-e.2)) X) k
        = if k ∈ keysOf Y then wrap16 (getD X k - getD Y k) else getD X k := by
  intro Y
  induction Y with
  | nil =>
      intro X k _
      simp [keysOf]
  | cons e rest ih =>
      intro X k hY
      obtain ⟨a, v⟩ := e
      have hcons : keysOf ((a, v) :: rest) = a :: keysOf rest := rfl
      rw [hcons] at hY
      have hnotin : a ∉ keysOf rest := (List.nodup_cons.mp hY).1
      have hrest : (keysOf rest).Nodup := (List.nodup_cons.mp hY).2
      simp only [List.foldl_cons]
      by_cases hka : k = a
      · subst hka
        rw [foldSub_getD_not_mem rest (insertAdd X k (-v)) k hnotin,
          insertAdd_getD, if_pos rfl, getD_cons_self]
        have hmem : k ∈ keysOf ((k, v) :: rest) := by
          rw [hcons]
          exact List.mem_cons_self _ _
        rw [if_pos hmem]
        ring_nf
      · have hak : ¬ a = k := fun hh => hka hh.symm
        rw [ih (insertAdd X a (-v)) k hrest, insertAdd_getD, if_neg hka,
          getD_cons_ne hak]
        have hmemiff : (k ∈ keysOf ((a, v) :: rest)) ↔ (k ∈ keysOf rest) := by
          rw [hcons]
          simp [hka]
        by_cases hm : k ∈ keysOf rest
        · rw [if_pos hm, if_pos (hmemiff.mpr hm)]
        · rw [if_neg hm, if_neg (fun hh => hm (hmemiff.mp hh))]

theorem nodup_foldSub {K : Type} [DecidableEq K] :
    ∀ (Y X : CountMap K), (keysOf X).Nodup →
      (keysOf (Y.foldl (fun m e => insertAdd m e.1 (-e.2)) X)).Nodup := by
  intro Y
  induction Y with
  | nil => intro X hX; exact hX
  | cons e rest ih =>
      intro X hX
      simp only [List.foldl_cons]
      exact ih (insertAdd X e.1 (-e.2)) (nodup_keysOf_insertAdd hX e.1 (-e.2))

theorem keysOf_filter_sublist {K : Type} (m : CountMap K) (p : K × Int → Bool) :
    (keysOf (m.filter p)).Sublist (keysOf m) := by
  exact List.Sublist.map Prod.fst (List.filter_sublist m)

theorem nodup_keysOf_filter {K : Type} {m : CountMap K} (hm : (keysOf m).Nodup)
    (p : K × Int → Bool) : (keysOf (m.filter p)).Nodup :=
  (keysOf_filter_sublist m p).nodup hm

theorem mem_keysOf_filter_nz {K : Type} [DecidableEq K] {m : CountMap K} {k : K}
    (hm : (keysOf m).Nodup) :
    k ∈ keysOf (m.filter (fun e => !(e.2 = 0))) ↔ k ∈ keysOf m ∧ getD m k ≠ 0 := by
  constructor
  · intro h
    rcases mem_keysOf_iff.mp h with ⟨v, hv⟩
    have hmem : (k, v) ∈ m := (List.mem_filter.mp hv).1
    have hp : v ≠ 0 := by
      have := (List.mem_filter.mp hv).2
      simpa using this
    have := getD_of_mem_nodup hm hmem
    exact ⟨mem_keysOf_iff.mpr ⟨v, hmem⟩, by rw [this]; exact hp⟩
  · rintro ⟨h1, h2⟩
    rcases mem_keysOf_iff.mp h1 with ⟨v, hv⟩
    have hval := getD_of_mem_nodup hm hv
    apply mem_keysOf_iff.mpr
    refine ⟨v, List.mem_filter.mpr ⟨hv, ?_⟩⟩
    simpa using (hval ▸ h2)

theorem getD_filter_nz {K : Type} [DecidableEq K] {m : CountMap K} (hm : (keysOf m).Nodup)
    (k : K) :
    getD (m.filter (fun e => !(e.2 = 0))) k = if getD m k = 0 then 0 else getD m k := by
  by_cases hz : getD m k = 0
  · rw [if_pos hz]
    apply getD_eq_zero_of_not_mem
    intro hmem
    exact ((mem_keysOf_filter_nz hm).mp hmem).2 hz
  · rw [if_neg hz]
    have hk : k ∈ keysOf m := mem_keysOf_of_getD_ne hz
    rcases mem_keysOf_iff.mp hk with ⟨v, hv⟩
    have hval := getD_of_mem_nodup hm hv
    have hmemf : (k, v) ∈ m.filter (fun e => !(e.2 = 0)) := by
      refine List.mem_filter.mpr ⟨hv, ?_⟩
      simpa using (hval ▸ hz)
    exact (getD_of_mem_nodup (nodup_keysOf_filter hm _) hmemf).trans hval.symm

theorem chunkRuns_cons (c : Char) (cs : List Char) :
    chunkRuns (c :: cs) =
      match chunkRuns cs with
      | [] => [[c]]
      | [] :: rest => [c] :: [] :: rest
      | (d :: ds) :: rest =>
          if isWordChar c = isWordChar d then (c :: d :: ds) :: rest
          else [c] :: (d :: ds) :: rest := by
  rfl

theorem chunkRuns_head_shape (c : Char) (cs : List Char) :
    ∃ t rest2, chunkRuns (c :: cs) = (c :: t) :: rest2 := by
  rw [chunkRuns_cons]
  rcases hc : chunkRuns cs with _ | ⟨h, rest⟩
  · exact ⟨[], [], rfl⟩
  · rcases h with _ | ⟨d, ds⟩
    · exact ⟨[], [] :: rest, rfl⟩
    · by_cases hw : isWordChar c = isWordChar d
      · refine ⟨d :: ds, rest, ?_⟩
        dsimp only
        rw [if_pos hw]
      · refine ⟨[], (d :: ds) :: rest, ?_⟩
        dsimp only
        rw [if_neg hw]

theorem chunkRuns_all_word :
    ∀ (l : List Char), l ≠ [] → (∀ a ∈ l, isWordChar a = true) → chunkRuns l = [l] := by
  intro l
  induction l with
  | nil => intro h; exact absurd rfl h
  | cons c rest ih =>
      intro _ hw
      rcases hr : rest with _ | ⟨c2, t⟩
      · rfl
      · have hwrest : ∀ a ∈ rest, isWordChar a = true :=
          fun a ha => hw a (List.mem_cons_of_mem c ha)
        have hrec : chunkRuns rest = [rest] := ih (by rw [hr]; simp) hwrest
        rw [hr] at hrec
        have h1 : isWordChar c = true := hw c (List.mem_cons_self _ _)
        have h2 : isWordChar c2 = true := by
          apply hw c2
          rw [hr]
          exact List.mem_cons_of_mem c (List.mem_cons_self _ _)
        rw [chunkRuns_cons, hrec]
        dsimp only
        rw [if_pos (h1.trans h2.symm)]

theorem filter_headWord_cons_nonword (c : Char) (cs : List Char)
    (hc : isWordChar c = false) :
    (chunkRuns (c :: cs)).filter headWord = (chunkRuns cs).filter headWord := by
  rw [chunkRuns_cons]
  rcases hck : chunkRuns cs with _ | ⟨h, rest⟩
  · simp [headWord, hc]
  · rcases h with _ | ⟨d, ds⟩
    · simp [headWord, hc]
    · by_cases hw : isWordChar c = isWordChar d
      · have hd : isWordChar d = false := hw ▸ hc
        dsimp only
        rw [if_pos hw]
        simp [headWord, hc, hd]
      · have hd : isWordChar d = true := by
          cases hdd : isWordChar d
          · exact absurd (hc.trans hdd.symm) hw
          · rfl
        dsimp only
        rw [if_neg hw]
        simp [headWord, hc, hd]

theorem chunkRuns_word_append :
    ∀ (w : List Char) (c : Char) (cs : List Char), w ≠ [] →
      (∀ a ∈ w, isWordChar a = true) → isWordChar c = false →
      chunkRuns (w ++ c :: cs) = w :: chunkRuns (c :: cs) := by
  intro w
  induction w with
  | nil => intro c cs h; exact absurd rfl h
  | cons a w2 ih =>
      intro c cs _ hw hc
      have ha : isWordChar a = true := hw a (List.mem_cons_self _ _)
      rcases hw2 : w2 with _ | ⟨b, w3⟩
      · obtain ⟨t, rest2, hshape⟩ := chunkRuns_head_shape c cs
        have hne : ¬ isWordChar a = isWordChar c := by
          rw [ha, hc]
          simp
        show chunkRuns (a :: (c :: cs)) = [a] :: chunkRuns (c :: cs)
        rw [chunkRuns_cons, hshape]
        dsimp only
        rw [if_neg hne, ← hshape]
      · have hrec : chunkRuns (w2 ++ c :: cs) = w2 :: chunkRuns (c :: cs) := by
          apply ih c cs
          · rw [hw2]; simp
          · intro x hx
            exact hw x (List.mem_cons_of_mem a hx)
          · exact hc
        rw [hw2] at hrec
        have hb : isWordChar b = true := by
          apply hw b
          rw [hw2]
          exact List.mem_cons_of_mem a (List.mem_cons_self _ _)
        show chunkRuns (a :: ((b :: w3) ++ c :: cs)) = (a :: b :: w3) :: chunkRuns (c :: cs)
        rw [chunkRuns_cons, hrec]
        dsimp only
        rw [if_pos (ha.trans hb.symm)]

theorem runsAux_eq_chunks :
    ∀ (cs acc : List Char), (∀ a ∈ acc, isWordChar a = true) →
      runsAux acc cs = (chunkRuns (acc.reverse ++ cs)).filter headWord := by
  intro cs
  induction cs with
  | nil =>
      intro acc hacc
      rcases hae : acc with _ | ⟨x, xs⟩
      · rfl
      · have hne : (x :: xs).reverse ≠ ([] : List Char) := by simp
        have haw : ∀ a ∈ (x :: xs).reverse, isWordChar a = true := by
          intro a ha
          exact (hae ▸ hacc) a (List.mem_reverse.mp ha)
        have hall := chunkRuns_all_word (x :: xs).reverse hne haw
        have hhw : headWord (x :: xs).reverse = true := by
          rcases hrev : (x :: xs).reverse with _ | ⟨y, ys⟩
          · exact absurd hrev hne
          · have hy : y ∈ (x :: xs).reverse := by
              rw [hrev]
              exact List.mem_cons_self _ _
            have := haw y hy
            simp [hrev, headWord, this]
        have hhw2 : headWord (xs.reverse ++ [x]) = true := by
          rw [← List.reverse_cons]
          exact hhw
        show (if (x :: xs).isEmpty then [] else [(x :: xs).reverse])
            = (chunkRuns ((x :: xs).reverse ++ [])).filter headWord
        rw [List.append_nil, hall]
        simp [List.filter, hhw2]
  | cons c cs2 ih =>
      intro acc hacc
      by_cases hcw : isWordChar c = true
      · have hstep : runsAux acc (c :: cs2) = runsAux (c :: acc) cs2 := by
          simp [runsAux, hcw]
        rw [hstep, ih (c :: acc) (by
          intro a ha
          rcases List.mem_cons.mp ha with h1 | h2
          · rw [h1]; exact hcw
          · exact hacc a h2)]
        have harr : (c :: acc).reverse ++ cs2 = acc.reverse ++ c :: cs2 := by
          rw [List.reverse_cons, List.append_assoc]
          rfl
        rw [harr]
      · have hcf : isWordChar c = false := by
          cases hdd : isWordChar c
          · rfl
          · exact absurd hdd hcw
        rcases hae : acc with _ | ⟨x, xs⟩
        · have hstep : runsAux ([] : List Char) (c :: cs2) = runsAux [] cs2 := by
            simp [runsAux, hcf]
          rw [hstep, ih [] (by intro a ha; cases ha)]
          rw [List.reverse_nil, List.nil_append, List.nil_append]
          exact (filter_headWord_cons_nonword c cs2 hcf).symm
        · have hstep : runsAux (x :: xs) (c :: cs2) = (x :: xs).reverse :: runsAux [] cs2 := by
            simp [runsAux, hcf]
          rw [hstep, ih [] (by intro a ha; cases ha), List.reverse_nil, List.nil_append]
          have hne : (x :: xs).reverse ≠ ([] : List Char) := by simp
          have haw : ∀ a ∈ (x :: xs).reverse, isWordChar a = true := by
            intro a ha
            exact (hae ▸ hacc) a (List.mem_reverse.mp ha)
          rw [chunkRuns_word_append (x :: xs).reverse c cs2 hne haw hcf]
          have hhw : headWord (x :: xs).reverse = true := by
            rcases hrev : (x :: xs).reverse with _ | ⟨y, ys⟩
            · exact absurd hrev hne
            · have hy : y ∈ (x :: xs).reverse := by
                rw [hrev]
                exact List.mem_cons_self _ _
              have := haw y hy
              simp [hrev, headWord, this]
          have hhw2 : headWord (xs.reverse ++ [x]) = true := by
            rw [← List.reverse_cons]
            exact hhw
          rw [List.filter_cons, if_pos (by simp [hhw2])]
          rw [filter_headWord_cons_nonword c cs2 hcf]

theorem isIdentRun_headWord {r : List Char} (h : isIdentRun r = true) :
    headWord r = true := by
  match r with
  | [] => exact absurd h (by simp [isIdentRun])
  | [c] => exact absurd h (by simp [isIdentRun])
  | c :: d :: t =>
      have hau : isAlphaUnd c = true := h
      have : c.isAlpha = true ∨ (c = '_') = true := by
        simpa [isAlphaUnd] using hau
      show isWordChar c = true
      rcases this with h1 | h2
      · simp [isWordChar, h1]
      · simp [isWordChar, h2]

theorem tokenRuns_eq_chunks (cs : List Char) :
    tokenRuns cs = (chunkRuns cs).filter isIdentRun := by
  unfold tokenRuns
  rw [runsAux_eq_chunks cs [] (by intro a ha; cases ha)]
  rw [List.reverse_nil, List.nil_append]
  rw [List.filter_filter]
  apply List.filter_congr
  intro r _
  cases hr : isIdentRun r
  · simp
  · simp [isIdentRun_headWord hr]

theorem lexLE_total {A : Type} [DecidableEq A] (ltE : A → A → Bool)
    (htri : ∀ a b : A, a ≠ b → ltE a b = true ∨ ltE b a = true) :
    ∀ x y : List A, lexLE ltE x y = true ∨ lexLE ltE y x = true := by
  intro x
  induction x with
  | nil => intro y; left; cases y <;> rfl
  | cons a as2 ih =>
      intro y
      cases y with
      | nil => right; rfl
      | cons b bs =>
          by_cases hab : a = b
          · subst hab
            rcases ih bs with h | h
            · left; simpa [lexLE] using h
            · right; simpa [lexLE] using h
          · have hba : ¬ b = a := fun hh => hab hh.symm
            rcases htri a b hab with h | h
            · left; simp [lexLE, hab, h]
            · right; simp [lexLE, hba, h]

theorem lexLE_trans {A : Type} [DecidableEq A] (ltE : A → A → Bool)
    (htr : ∀ a b c : A, ltE a b = true → ltE b c = true → ltE a c = true)
    (hasym : ∀ a b : A, ltE a b = true → ltE b a = true → False) :
    ∀ x y z : List A, lexLE ltE x y = true → lexLE ltE y z = true →
      lexLE ltE x z = true := by
  intro x
  induction x with
  | nil => intro y z _ _; cases z <;> rfl
  | cons a as2 ih =>
      intro y z hxy hyz
      cases y with
      | nil => exact absurd hxy (by simp [lexLE])
      | cons b bs =>
          cases z with
          | nil => exact absurd hyz (by simp [lexLE])
          | cons c cs =>
              by_cases hab : a = b
              · subst hab
                by_cases hbc : a = c
                · subst hbc
                  have h1 : lexLE ltE as2 bs = true := by simpa [lexLE] using hxy
                  have h2 : lexLE ltE bs cs = true := by simpa [lexLE] using hyz
                  simpa [lexLE] using ih bs cs h1 h2
                · have h2 : ltE a c = true := by simpa [lexLE, hbc] using hyz
                  simpa [lexLE, hbc] using h2
              · have h1 : ltE a b = true := by simpa [lexLE, hab] using hxy
                by_cases hbc : b = c
                · subst hbc
                  have hac : ¬ a = b := hab
                  simpa [lexLE, hac] using h1
                · have h2 : ltE b c = true := by simpa [lexLE, hbc] using hyz
                  have hac : ¬ a = c := by
                    intro hh
                    subst hh
                    exact hasym a b h1 h2
                  simpa [lexLE, hac] using htr a b c h1 h2

theorem lexLT_trans {A : Type} [DecidableEq A] (ltE : A → A → Bool)
    (htr : ∀ a b c : A, ltE a b = true → ltE b c = true → ltE a c = true)
    (hasym : ∀ a b : A, ltE a b = true → ltE b a = true → False) :
    ∀ x y z : List A, lexLT ltE x y = true → lexLT ltE y z = true →
      lexLT ltE x z = true := by
  intro x
  induction x with
  | nil =>
      intro y z hxy hyz
      cases y with
      | nil => exact absurd hxy (by simp [lexLT])
      | cons b bs =>
          cases z with
          | nil => exact absurd hyz (by simp [lexLT])
          | cons c cs => rfl
  | cons a as2 ih =>
      intro y z hxy hyz
      cases y with
      | nil => exact absurd hxy (by simp [lexLT])
      | cons b bs =>
          cases z with
          | nil => exact absurd hyz (by simp [lexLT])
          | cons c cs =>
              by_cases hab : a = b
              · subst hab
                by_cases hbc : a = c
                · subst hbc
                  have h1 : lexLT ltE as2 bs = true := by simpa [lexLT] using hxy
                  have h2 : lexLT ltE bs cs = true := by simpa [lexLT] using hyz
                  simpa [lexLT] using ih bs cs h1 h2
                · have h2 : ltE a c = true := by simpa [lexLT, hbc] using hyz
                  simpa [lexLT, hbc] using h2
              · have h1 : ltE a b = true := by simpa [lexLT, hab] using hxy
                by_cases hbc : b = c
                · subst hbc
                  simpa [lexLT, hab] using h1
                · have h2 : ltE b c = true := by simpa [lexLT, hbc] using hyz
                  have hac : ¬ a = c := by
                    intro hh
                    subst hh
                    exact hasym a b h1 h2
                  simpa [lexLT, hac] using htr a b c h1 h2

theorem lexLT_asym {A : Type} [DecidableEq A] (ltE : A → A → Bool)
    (hasym : ∀ a b : A, ltE a b = true → ltE b a = true → False) :
    ∀ x y : List A, lexLT ltE x y = true → lexLT ltE y x = true → False := by
  intro x
  induction x with
  | nil =>
      intro y hxy hyx
      cases y with
      | nil => exact absurd hxy (by simp [lexLT])
      | cons b bs => exact absurd hyx (by simp [lexLT])
  | cons a as2 ih =>
      intro y hxy hyx
      cases y with
      | nil => exact absurd hxy (by simp [lexLT])
      | cons b bs =>
          by_cases hab : a = b
          · subst hab
            have h1 : lexLT ltE as2 bs = true := by simpa [lexLT] using hxy
            have h2 : lexLT ltE bs as2 = true := by simpa [lexLT] using hyx
            exact ih bs h1 h2
          · have hba : ¬ b = a := fun hh => hab hh.symm
            have h1 : ltE a b = true := by simpa [lexLT, hab] using hxy
            have h2 : ltE b a = true := by simpa [lexLT, hba] using hyx
            exact hasym a b h1 h2

theorem lexLT_tri {A : Type} [DecidableEq A] (ltE : A → A → Bool)
    (htri : ∀ a b : A, a ≠ b → ltE a b = true ∨ ltE b a = true) :
    ∀ x y : List A, x ≠ y → lexLT ltE x y = true ∨ lexLT ltE y x = true := by
  intro x
  induction x with
  | nil =>
      intro y hne
      cases y with
      | nil => exact absurd rfl hne
      | cons b bs => left; rfl
  | cons a as2 ih =>
      intro y hne
      cases y with
      | nil => right; rfl
      | cons b bs =>
          by_cases hab : a = b
          · subst hab
            have hne2 : as2 ≠ bs := by
              intro hh
              exact hne (by rw [hh])
            rcases ih bs hne2 with h | h
            · left; simpa [lexLT] using h
            · right; simpa [lexLT] using h
          · have hba : ¬ b = a := fun hh => hab hh.symm
            rcases htri a b hab with h | h
            · left; simp [lexLT, hab, h]
            · right; simp [lexLT, hba, h]

theorem charLT_trans : ∀ a b c : Char, charLT a b = true → charLT b c = true →
    charLT a c = true := by
  intro a b c h1 h2
  have g1 : a < b := of_decide_eq_true h1
  have g2 : b < c := of_decide_eq_true h2
  exact decide_eq_true (lt_trans g1 g2)

theorem charLT_asym : ∀ a b : Char, charLT a b = true → charLT b a = true → False := by
  intro a b h1 h2
  exact lt_asymm (of_decide_eq_true h1) (of_decide_eq_true h2)

theorem charLT_tri : ∀ a b : Char, a ≠ b → charLT a b = true ∨ charLT b a = true := by
  intro a b hne
  rcases lt_or_gt_of_ne hne with h | h
  · exact Or.inl (decide_eq_true h)
  · exact Or.inr (decide_eq_true h)

theorem strNe_data {s t : String} (h : s ≠ t) : s.data ≠ t.data := by
  intro hd
  apply h
  cases s
  cases t
  exact congrArg String.mk hd

theorem strLeB_total : ∀ s t : String, strLeB s t = true ∨ strLeB t s = true := by
  intro s t
  exact lexLE_total charLT charLT_tri s.data t.data

theorem strLeB_trans : ∀ s t u : String, strLeB s t = true → strLeB t u = true →
    strLeB s u = true := by
  intro s t u
  exact lexLE_trans charLT charLT_trans charLT_asym s.data t.data u.data

theorem strLtB_trans : ∀ s t u : String, strLtB s t = true → strLtB t u = true →
    strLtB s u = true := by
  intro s t u
  exact lexLT_trans charLT charLT_trans charLT_asym s.data t.data u.data

theorem strLtB_asym : ∀ s t : String, strLtB s t = true → strLtB t s = true → False := by
  intro s t
  exact lexLT_asym charLT charLT_asym s.data t.data

theorem strLtB_tri : ∀ s t : String, s ≠ t → strLtB s t = true ∨ strLtB t s = true := by
  intro s t hne
  exact lexLT_tri charLT charLT_tri s.data t.data (strNe_data hne)

theorem pcLT_trans : ∀ a b c : PathComp, pcLT a b = true → pcLT b c = true →
    pcLT a c = true := by
  intro a b c h1 h2
  cases a <;> cases b <;> cases c <;>
    simp_all [pcLT, pcRank] <;>
    first
      | omega
      | exact strLtB_trans _ _ _ h1 h2

theorem pcLT_asym : ∀ a b : PathComp, pcLT a b = true → pcLT b a = true → False := by
  intro a b h1 h2
  cases a <;> cases b <;>
    simp_all [pcLT, pcRank] <;>
    first
      | omega
      | exact strLtB_asym _ _ h1 h2

theorem pcLT_tri : ∀ a b : PathComp, a ≠ b → pcLT a b = true ∨ pcLT b a = true := by
  intro a b hne
  cases a <;> cases b <;>
    simp_all [pcLT, pcRank] <;>
    exact strLtB_tri _ _ hne

theorem pathLeB_total : ∀ p q : List PathComp, pathLeB p q = true ∨ pathLeB q p = true := by
  intro p q
  exact lexLE_total pcLT pcLT_tri p q

theorem pathLeB_trans : ∀ p q r : List PathComp, pathLeB p q = true → pathLeB q r = true →
    pathLeB p r = true := by
  intro p q r
  exact lexLE_trans pcLT pcLT_trans pcLT_asym p q r

theorem pairLE_total {K : Type} (leK : K → K → Bool)
    (htot : ∀ a b : K, leK a b = true ∨ leK b a = true) :
    ∀ x y : K × Int, pairLE leK x y = true ∨ pairLE leK y x = true := by
  intro x y
  by_cases h : x.2 = y.2
  · rcases htot x.1 y.1 with h1 | h1
    · left; simp [pairLE, h, h1]
    · right; simp [pairLE, h.symm, h1]
  · have h2 : ¬ y.2 = x.2 := fun hh => h hh.symm
    rcases lt_or_gt_of_ne h with hlt | hgt
    · right; simp [pairLE, h2]; omega
    · left; simp [pairLE, h]; omega

theorem pairLE_trans {K : Type} (leK : K → K → Bool)
    (htr : ∀ a b c : K, leK a b = true → leK b c = true → leK a c = true) :
    ∀ x y z : K × Int, pairLE leK x y = true → pairLE leK y z = true →
      pairLE leK x z = true := by
  intro x y z hxy hyz
  by_cases h1 : x.2 = y.2
  · by_cases h2 : y.2 = z.2
    · have e1 : leK x.1 y.1 = true := by simpa [pairLE, h1] using hxy
      have e2 : leK y.1 z.1 = true := by simpa [pairLE, h2] using hyz
      have h3 : x.2 = z.2 := h1.trans h2
      simp [pairLE, h3, htr _ _ _ e1 e2]
    · have e2 : z.2 < y.2 := by
        have := hyz
        simp [pairLE, h2] at this
        omega
      have h3 : ¬ x.2 = z.2 := by omega
      simp [pairLE, h3]
      omega
  · have e1 : y.2 < x.2 := by
      have := hxy
      simp [pairLE, h1] at this
      omega
    by_cases h2 : y.2 = z.2
    · have h3 : ¬ x.2 = z.2 := by omega
      simp [pairLE, h3]
      omega
    · have e2 : z.2 < y.2 := by
        have := hyz
        simp [pairLE, h2] at this
        omega
      have h3 : ¬ x.2 = z.2 := by omega
      simp [pairLE, h3]
      omega

theorem ilog10F_digits : ∀ (fuel n : Nat), n ≠ 0 → n ≤ fuel →
    ilog10F fuel n + 1 = (Nat.digits 10 n).length := by
  intro fuel
  induction fuel with
  | zero => intro n h1 h2; omega
  | succ fuel ih =>
      intro n h1 h2
      have hd := Nat.digits_def' (show 1 < 10 by norm_num) (Nat.pos_of_ne_zero h1)
      by_cases hlt : n < 10
      · have hdiv : n / 10 = 0 := Nat.div_eq_of_lt hlt
        rw [hd, hdiv]
        simp [ilog10F, hlt]
      · have hge : 10 ≤ n := le_of_not_lt hlt
        have hne2 : n / 10 ≠ 0 := by
          have := Nat.le_div_iff_mul_le (show 0 < 10 by norm_num) |>.mpr
              (show 1 * 10 ≤ n by omega)
          omega
        have hle2 : n / 10 ≤ fuel := by
          have := Nat.div_lt_self (Nat.pos_of_ne_zero h1) (show 1 < 10 by norm_num)
          omega
        have := ih (n / 10) hne2 hle2
        rw [hd]
        simp only [ilog10F, if_neg hlt, List.length_cons]
        omega

theorem count_warning_fn_eq {K : Type} [DecidableEq K] (ws : List Warning)
    (f : Warning → K) :
    count_warning_fn ws f = countList (ws.map f) := by
  unfold count_warning_fn countList
  rw [List.foldl_map]

theorem countFold_replicate {K : Type} [DecidableEq K] (k : K) :
    ∀ (n : Nat) (v : Int),
      List.foldl (fun m x => insertAdd m x 1) [(k, wrap16 v)] (List.replicate n k)
        = [(k, wrap16 (v + n))] := by
  intro n
  induction n with
  | zero => intro v; simp
  | succ n ih =>
      intro v
      rw [List.replicate_succ]
      simp only [List.foldl_cons]
      rw [insertAdd_cons_self, wrap16_add]
      rw [ih (v + 1)]
      have harg : v + 1 + (n : Int) = v + ((n : Nat) + 1 : Nat) := by
        push_cast
        ring
      rw [harg]

theorem countList_replicate {K : Type} [DecidableEq K] (k : K) (n : Nat) (h : n ≠ 0) :
    countList (List.replicate n k) = [(k, wrap16 (n : Int))] := by
  cases n with
  | zero => exact absurd rfl h
  | succ m =>
      unfold countList
      rw [List.replicate_succ]
      simp only [List.foldl_cons]
      have h0 : insertAdd ([] : CountMap K) k 1 = [(k, wrap16 1)] := rfl
      rw [h0, countFold_replicate k m 1]
      have harg : (1 : Int) + (m : Int) = ((m + 1 : Nat) : Int) := by
        push_cast
        ring
      rw [harg]

/-- C1, amended: for every WarningCollection constructed from raw text with
fewer than 32768 extracted warnings and at most 32767 total keyword
occurrences, the sums of the names, files and directories mappings each
equal the number of extracted warnings, and the sum of the keywords
mapping equals the total number of keyword occurrences.  (The original
claim assumed the warning bound alone rules out i16 overflow; the keyword
counters can overflow without it, see the counterexample.) -/
theorem c1_aggregate_sums (content : String) (keyword_len : Nat)
    (ignored_keywords : List String) (cwd : String)
    (hw : (WarningCollection.new content keyword_len ignored_keywords cwd).warnings.length
      < 32768)
    (hk : totalKeywordCount
      (WarningCollection.new content keyword_len ignored_keywords cwd).warnings ≤ 32767) :
    sumValues (WarningCollection.new content keyword_len ignored_keywords cwd).names
      = ((WarningCollection.new content keyword_len ignored_keywords cwd).warnings.length : Int)
    ∧ sumValues (WarningCollection.new content keyword_len ignored_keywords cwd).files
      = ((WarningCollection.new content keyword_len ignored_keywords cwd).warnings.length : Int)
    ∧ sumValues (WarningCollection.new content keyword_len ignored_keywords cwd).directories
      = ((WarningCollection.new content keyword_len ignored_keywords cwd).warnings.length : Int)
    ∧ sumValues (WarningCollection.new content keyword_len ignored_keywords cwd).keywords
      = (totalKeywordCount
          (WarningCollection.new content keyword_len ignored_keywords cwd).warnings : Int) := by
  have hmaplen : ∀ (f : Warning →
      String), ((WarningCollection.new content keyword_len ignored_keywords cwd).warnings.map
        f).length ≤ 32767 := by
    intro f
    rw [List.length_map]
    omega
  refine ⟨?_, ?_, ?_, ?_⟩
  · rw [show (WarningCollection.new content keyword_len ignored_keywords cwd).names
        = countList ((WarningCollection.new content keyword_len
            ignored_keywords cwd).warnings.map (fun w => w.name)) from
      count_warning_fn_eq _ _]
    rw [countList_sum _ (hmaplen _)]
    rw [List.length_map]
  · rw [show (WarningCollection.new content keyword_len ignored_keywords cwd).files
        = countList ((WarningCollection.new content keyword_len
            ignored_keywords cwd).warnings.map (fun w => w.file)) from
      count_warning_fn_eq _ _]
    rw [countList_sum _ (by rw [List.length_map]; omega)]
    rw [List.length_map]
  · rw [show (WarningCollection.new content keyword_len ignored_keywords cwd).directories
        = countList ((WarningCollection.new content keyword_len
            ignored_keywords cwd).warnings.map dirKey) from
      count_warning_fn_eq _ _]
    rw [countList_sum _ (by rw [List.length_map]; omega)]
    rw [List.length_map]
  · rw [show (WarningCollection.new content keyword_len ignored_keywords cwd).keywords
        = countList (((WarningCollection.new content keyword_len
            ignored_keywords cwd).warnings.map (fun w => w.keywords)).flatten) from rfl]
    rw [countList_sum _ (by
      rw [show (((WarningCollection.new content keyword_len
          ignored_keywords cwd).warnings.map (fun w => w.keywords)).flatten).length
        = totalKeywordCount
            (WarningCollection.new content keyword_len ignored_keywords cwd).warnings from rfl]
      omega)]
    rfl

theorem c1_aggregate_sums_witness :
    ((WarningCollection.new "/a/b.c:1:2: warning: m [-Wx]" 5 [] "/a").warnings.length < 32768
      ∧ totalKeywordCount
          (WarningCollection.new "/a/b.c:1:2: warning: m [-Wx]" 5 [] "/a").warnings ≤ 32767)
    ∧ (sumValues (WarningCollection.new "/a/b.c:1:2: warning: m [-Wx]" 5 [] "/a").names
        = ((WarningCollection.new "/a/b.c:1:2: warning: m [-Wx]" 5 [] "/a").warnings.length : Int)
      ∧ sumValues (WarningCollection.new "/a/b.c:1:2: warning: m [-Wx]" 5 [] "/a").files
        = ((WarningCollection.new "/a/b.c:1:2: warning: m [-Wx]" 5 [] "/a").warnings.length : Int)
      ∧ sumValues (WarningCollection.new "/a/b.c:1:2: warning: m [-Wx]" 5 [] "/a").directories
        = ((WarningCollection.new "/a/b.c:1:2: warning: m [-Wx]" 5 [] "/a").warnings.length : Int)
      ∧ sumValues (WarningCollection.new "/a/b.c:1:2: warning: m [-Wx]" 5 [] "/a").keywords
        = (totalKeywordCount
            (WarningCollection.new "/a/b.c:1:2: warning: m [-Wx]" 5 [] "/a").warnings : Int)) :=
  ⟨by decide, c1_aggregate_sums ("/a/b.c:1:2: warning: m [-Wx]") 5 [] ("/a")
      (by decide) (by decide)⟩

theorem starFrom_all {A : Type} (cls : Char → Bool) :
    ∀ (s : List Char) (k : List Char → Option A), (∀ c ∈ s, cls c = true) →
      (k []).isSome = true → starFrom cls s k = k [] := by
  intro s
  induction s with
  | nil => intro k _ _; rfl
  | cons c rest ih =>
      intro k hall hk
      have hc : cls c = true := hall c (List.mem_cons_self _ _)
      have hrec := ih k (fun d hd => hall d (List.mem_cons_of_mem c hd)) hk
      show (if cls c then
          match starFrom cls rest k with
          | some r => some r
          | none => k (c :: rest)
        else k (c :: rest)) = k []
      rw [if_pos hc, hrec]
      rcases hke : k [] with _ | r
      · rw [hke] at hk
        cases hk
      · rfl

theorem extractLoop_nil : ∀ fuel : Nat, extractLoop fuel [] = [] := by
  intro fuel
  cases fuel with
  | zero => rfl
  | succ f => rfl

theorem matchTA_family {A : Type} (e : List Char) (he : ∀ c ∈ e, isDotChar c = true)
    (k : List Char → Option A) (r : A) (hk : k [] = some r) :
    matchTA ('\n' :: ' ' :: ' ' :: '1' :: ' ' :: '|' :: e) k = some r := by
  have hstar : starFrom isDotChar e k = some r := by
    rw [starFrom_all isDotChar e k he (by rw [hk]; rfl), hk]
  unfold matchTA
  simp [litM, plusFrom, clsM, starFrom, isSpaceChar, isDigitChar, isDotChar,
    List.isPrefixOf, hstar]

theorem matchTail_family (e : List Char) (he : ∀ c ∈ e, isDotChar c = true)
    (file : List Char) (tb : Option (List Char)) :
    matchTail file tb
        ('w' :: 'a' :: 'r' :: 'n' :: 'i' :: 'n' :: 'g' :: ':' :: ' ' :: 'x' :: ' '
          :: '[' :: '-' :: 'W' :: 'y' :: ']' :: '\n' :: ' ' :: ' ' :: '1' :: ' ' :: '|' :: e)
      = some ({ file := file, text_before := tb, name := ['y'],
                text_after := some ('\n' :: ' ' :: ' ' :: '1' :: ' ' :: '|' :: e) },
          []) := by
  have hTA := matchTA_family (A := List Char × List Char) e he
      (fun s15 => some ((('\n' :: ' ' :: ' ' :: '1' :: ' ' :: '|' :: e)).take
          ((('\n' :: ' ' :: ' ' :: '1' :: ' ' :: '|' :: e)).length - s15.length), s15))
      (('\n' :: ' ' :: ' ' :: '1' :: ' ' :: '|' :: e), []) (by simp)
  simp only [List.length_cons] at hTA
  unfold matchTail
  simp [litM, plusFrom, clsM, starFrom, isSpaceChar, isDigitChar, isDotChar,
    List.isPrefixOf, hTA]

theorem matchWarnAt_family (e : List Char) (he : ∀ c ∈ e, isDotChar c = true) :
    matchWarnAt ('f' :: ':' :: '1' :: ':' :: '1' :: ':' :: ' '
        :: 'w' :: 'a' :: 'r' :: 'n' :: 'i' :: 'n' :: 'g' :: ':' :: ' ' :: 'x' :: ' '
        :: '[' :: '-' :: 'W' :: 'y' :: ']' :: '\n' :: ' ' :: ' ' :: '1' :: ' ' :: '|' :: e)
      = some ({ file := ['f'], text_before := none, name := ['y'],
                text_after := some ('\n' :: ' ' :: ' ' :: '1' :: ' ' :: '|' :: e) },
          []) := by
  have hTail := matchTail_family e he ['f'] none
  unfold matchWarnAt
  simp [litM, plusFrom, clsM, starFrom, matchTB, isSpaceChar, isDigitChar, isDotChar,
    List.isPrefixOf, hTail]

theorem runsAux_family : ∀ n : Nat,
    runsAux [] ((List.replicate n [' ', 'a', 'a']).flatten) = List.replicate n ['a', 'a']
    ∧ runsAux ['a', 'a'] ((List.replicate n [' ', 'a', 'a']).flatten)
      = ['a', 'a'] :: List.replicate n ['a', 'a'] := by
  intro n
  induction n with
  | zero => exact ⟨rfl, rfl⟩
  | succ n ih =>
      rw [List.replicate_succ, List.flatten_cons]
      constructor
      · show runsAux ['a', 'a'] ((List.replicate n [' ', 'a', 'a']).flatten)
            = List.replicate (n + 1) ['a', 'a']
        rw [ih.2, List.replicate_succ]
      · show (['a', 'a'] : List Char).reverse
              :: runsAux ['a', 'a'] ((List.replicate n [' ', 'a', 'a']).flatten)
            = ['a', 'a'] :: List.replicate (n + 1) ['a', 'a']
        rw [ih.2, List.replicate_succ]
        rfl

theorem keywords_family (n : Nat) :
    make_keywords (String.mk ('\n' :: ' ' :: ' ' :: '1' :: ' ' :: '|'
        :: (List.replicate n [' ', 'a', 'a']).flatten)) 2 []
      = List.replicate n "aa" := by
  unfold make_keywords tokenRuns
  have h1 : runsAux [] ('\n' :: ' ' :: ' ' :: '1' :: ' ' :: '|'
        :: (List.replicate n [' ', 'a', 'a']).flatten)
      = ['1'] :: runsAux [] ((List.replicate n [' ', 'a', 'a']).flatten) := rfl
  rw [show (String.mk ('\n' :: ' ' :: ' ' :: '1' :: ' ' :: '|'
        :: (List.replicate n [' ', 'a', 'a']).flatten)).data
      = '\n' :: ' ' :: ' ' :: '1' :: ' ' :: '|'
        :: (List.replicate n [' ', 'a', 'a']).flatten from rfl]
  rw [h1, (runsAux_family n).1]
  rw [List.filter_cons]
  rw [show (isIdentRun ['1'] : Bool) = false from rfl]
  simp only [Bool.false_eq_true, if_false]
  rw [List.filter_replicate, show (isIdentRun ['a', 'a'] : Bool) = true from rfl]
  simp only [if_true]
  rw [List.filter_replicate]
  simp [List.map_replicate, List.filter_replicate]

theorem c1content_data :
    c1content.data = 'f' :: ':' :: '1' :: ':' :: '1' :: ':' :: ' '
        :: 'w' :: 'a' :: 'r' :: 'n' :: 'i' :: 'n' :: 'g' :: ':' :: ' ' :: 'x' :: ' '
        :: '[' :: '-' :: 'W' :: 'y' :: ']' :: '\n' :: ' ' :: ' ' :: '1' :: ' ' :: '|'
        :: (List.replicate 32768 [' ', 'a', 'a']).flatten := by
  unfold c1content
  rw [String.data_append]
  rfl

theorem c1tail_dot :
    ∀ c ∈ (List.replicate 32768 [' ', 'a', 'a']).flatten, isDotChar c = true := by
  intro c hc
  rcases List.mem_flatten.mp hc with ⟨x, hx, hcx⟩
  have hxe := List.eq_of_mem_replicate hx
  subst hxe
  simp only [List.mem_cons, List.not_mem_nil, or_false] at hcx
  rcases hcx with h | h | h
  · rw [h]; rfl
  · rw [h]; rfl
  · rw [h]; rfl

theorem extract_family (e : List Char) (he : ∀ c ∈ e, isDotChar c = true) :
    extractWarnings ('f' :: ':' :: '1' :: ':' :: '1' :: ':' :: ' '
        :: 'w' :: 'a' :: 'r' :: 'n' :: 'i' :: 'n' :: 'g' :: ':' :: ' ' :: 'x' :: ' '
        :: '[' :: '-' :: 'W' :: 'y' :: ']' :: '\n' :: ' ' :: ' ' :: '1' :: ' ' :: '|' :: e)
      = [{ file := ['f'], text_before := none, name := ['y'],
            text_after := some ('\n' :: ' ' :: ' ' :: '1' :: ' ' :: '|' :: e) }] := by
  have hmatch := matchWarnAt_family e he
  have hfind : findFrom ('f' :: ':' :: '1' :: ':' :: '1' :: ':' :: ' '
        :: 'w' :: 'a' :: 'r' :: 'n' :: 'i' :: 'n' :: 'g' :: ':' :: ' ' :: 'x' :: ' '
        :: '[' :: '-' :: 'W' :: 'y' :: ']' :: '\n' :: ' ' :: ' ' :: '1' :: ' ' :: '|' :: e)
      = some ({ file := ['f'], text_before := none, name := ['y'],
                text_after := some ('\n' :: ' ' :: ' ' :: '1' :: ' ' :: '|' :: e) }, []) := by
    calc findFrom ('f' :: ':' :: '1' :: ':' :: '1' :: ':' :: ' '
          :: 'w' :: 'a' :: 'r' :: 'n' :: 'i' :: 'n' :: 'g' :: ':' :: ' ' :: 'x' :: ' '
          :: '[' :: '-' :: 'W' :: 'y' :: ']' :: '\n' :: ' ' :: ' ' :: '1' :: ' ' :: '|' :: e)
        = (match matchWarnAt ('f' :: ':' :: '1' :: ':' :: '1' :: ':' :: ' '
            :: 'w' :: 'a' :: 'r' :: 'n' :: 'i' :: 'n' :: 'g' :: ':' :: ' ' :: 'x' :: ' '
            :: '[' :: '-' :: 'W' :: 'y' :: ']' :: '\n' :: ' ' :: ' ' :: '1' :: ' ' :: '|' :: e) with
          | some r => some r
          | none => findFrom (':' :: '1' :: ':' :: '1' :: ':' :: ' '
              :: 'w' :: 'a' :: 'r' :: 'n' :: 'i' :: 'n' :: 'g' :: ':' :: ' ' :: 'x' :: ' '
              :: '[' :: '-' :: 'W' :: 'y' :: ']' :: '\n' :: ' ' :: ' ' :: '1' :: ' ' :: '|' :: e)) := rfl
      _ = some ({ file := ['f'], text_before := none, name := ['y'],
                  text_after := some ('\n' :: ' ' :: ' ' :: '1' :: ' ' :: '|' :: e) }, []) := by
          rw [hmatch]
  have hloop : ∀ (fuel : Nat) (s : List Char),
      extractLoop (fuel + 1) s = (match findFrom s with
        | none => []
        | some (caps, rest) => caps :: extractLoop fuel rest) := fun _ _ => rfl
  unfold extractWarnings
  rw [hloop, hfind]
  dsimp only
  rw [extractLoop_nil]

theorem collection_family (e : List Char) (he : ∀ c ∈ e, isDotChar c = true)
    (content : String)
    (hdata : content.data = 'f' :: ':' :: '1' :: ':' :: '1' :: ':' :: ' '
        :: 'w' :: 'a' :: 'r' :: 'n' :: 'i' :: 'n' :: 'g' :: ':' :: ' ' :: 'x' :: ' '
        :: '[' :: '-' :: 'W' :: 'y' :: ']' :: '\n' :: ' ' :: ' ' :: '1' :: ' ' :: '|' :: e) :
    (WarningCollection.new content 2 [] "").warnings
      = [{ name := "y", file := [PathComp.normal "f"],
            keywords := make_keywords (String.mk ('\n' :: ' ' :: ' ' :: '1' :: ' ' :: '|' :: e))
              2 [] }] := by
  have hwar : (WarningCollection.new content 2 [] "").warnings
      = (extractWarnings content.data).map
          (warningOfCapture (parsePath ("" : String).data) 2 []) := rfl
  rw [hwar, hdata, extract_family e he, List.map_singleton]
  unfold warningOfCapture
  rfl

theorem c1content_warnings :
    (WarningCollection.new c1content 2 [] "").warnings
      = [{ name := "y", file := [PathComp.normal "f"],
            keywords := List.replicate 32768 "aa" }] := by
  rw [collection_family ((List.replicate 32768 [' ', 'a', 'a']).flatten) c1tail_dot
    c1content c1content_data]
  rw [keywords_family 32768]

/-- C1, counterexample to the claim as stated: this raw log text yields a
single extracted warning, so fewer than 32768 warnings, but its excerpt
carries 32768 keyword occurrences of the token aa; the i16 keyword
counter wraps to -32768, so the sum of the keywords mapping does not
equal the total number of keyword occurrences. -/
theorem c1_counterexample :
    (WarningCollection.new c1content 2 [] "").warnings.length < 32768
    ∧ totalKeywordCount (WarningCollection.new c1content 2 [] "").warnings = 32768
    ∧ sumValues (WarningCollection.new c1content 2 [] "").keywords = -32768 := by
  have hw := c1content_warnings
  refine ⟨?_, ?_, ?_⟩
  · rw [hw, List.length_singleton]
    norm_num
  · rw [hw]
    simp only [totalKeywordCount, List.map_cons, List.map_nil, List.flatten_cons,
      List.flatten_nil, List.append_nil, List.length_replicate]
  · have hkw : ∀ (content : String) (klen : Nat) (ign : List String) (cwd : String),
        (WarningCollection.new content klen ign cwd).keywords
          = count_warning_keywords (WarningCollection.new content klen ign cwd).warnings :=
      fun _ _ _ _ => rfl
    rw [hkw, hw]
    have h1 : count_warning_keywords
          [Warning.mk ("y") [PathComp.normal "f"] (List.replicate 32768 "aa")]
        = countList (List.replicate 32768 "aa") := by
      simp only [count_warning_keywords, countList, List.map_cons, List.map_nil,
        List.flatten_cons, List.flatten_nil, List.append_nil]
    rw [h1, countList_replicate ("aa") 32768 (by norm_num)]
    rw [show sumValues [(("aa" : String), wrap16 ((32768 : Nat) : Int))]
        = wrap16 ((32768 : Nat) : Int) from by simp [sumValues]]
    decide

/-- C2: for count mappings X and Y with distinct keys and no i16 overflow
in any per-key subtraction, the value of diff_hashmaps X Y at every key
is the difference of the two lookups, its key set is exactly the keys at
which the two lookups differ, and the diff of a mapping with itself is
the empty mapping. -/
theorem c2_diff_spec {K : Type} [DecidableEq K] (X Y : CountMap K)
    (hX : (keysOf X).Nodup) (hY : (keysOf Y).Nodup)
    (hr : ∀ k ∈ keysOf X ++ keysOf Y,
      -32768 ≤ getD X k - getD Y k ∧ getD X k - getD Y k ≤ 32767) :
    (∀ k, getD (diff_hashmaps X Y) k = getD X k - getD Y k)
    ∧ (∀ k, k ∈ keysOf (diff_hashmaps X Y) ↔ getD X k ≠ getD Y k)
    ∧ diff_hashmaps X X = [] := by
  have hgetA : ∀ k, getD (Y.foldl (fun m e => insertAdd m e.1 (-e.2)) X) k
      = getD X k - getD Y k := by
    intro k
    rw [foldSub_getD Y X k hY]
    by_cases hm : k ∈ keysOf Y
    · rw [if_pos hm]
      have hrk := hr k (List.mem_append_right _ hm)
      exact wrap16_eq_self _ hrk.1 hrk.2
    · rw [if_neg hm, getD_eq_zero_of_not_mem hm]
      ring
  have hAnodup : (keysOf (Y.foldl (fun m e => insertAdd m e.1 (-e.2)) X)).Nodup :=
    nodup_foldSub Y X hX
  refine ⟨?_, ?_, ?_⟩
  · intro k
    show getD ((Y.foldl (fun m e => insertAdd m e.1 (-e.2)) X).filter
        (fun e => !(e.2 = 0))) k = getD X k - getD Y k
    rw [getD_filter_nz hAnodup, hgetA]
    by_cases hz : getD X k - getD Y k = 0
    · rw [if_pos hz, hz]
    · rw [if_neg hz]
  · intro k
    show k ∈ keysOf ((Y.foldl (fun m e => insertAdd m e.1 (-e.2)) X).filter
        (fun e => !(e.2 = 0))) ↔ getD X k ≠ getD Y k
    rw [mem_keysOf_filter_nz hAnodup, hgetA]
    constructor
    · intro h
      intro hh
      exact h.2 (by omega)
    · intro h
      have hz : getD X k - getD Y k ≠ 0 := by omega
      refine ⟨mem_keysOf_of_getD_ne ?_, hz⟩
      rw [hgetA]
      exact hz
  · have hgetA2 : ∀ k, getD (X.foldl (fun m e => insertAdd m e.1 (-e.2)) X) k = 0 := by
      intro k
      rw [foldSub_getD X X k hX]
      by_cases hm : k ∈ keysOf X
      · rw [if_pos hm]
        have : getD X k - getD X k = 0 := by ring
        rw [this]
        decide
      · rw [if_neg hm]
        exact getD_eq_zero_of_not_mem hm
    have hAnodup2 : (keysOf (X.foldl (fun m e => insertAdd m e.1 (-e.2)) X)).Nodup :=
      nodup_foldSub X X hX
    show (X.foldl (fun m e => insertAdd m e.1 (-e.2)) X).filter (fun e => !(e.2 = 0)) = []
    apply List.filter_eq_nil_iff.mpr
    intro e he
    have hv := getD_of_mem_nodup hAnodup2 (show (e.1, e.2) ∈ _ from he)
    rw [hgetA2 e.1] at hv
    simp [← hv]

theorem c2_diff_spec_witness :
    ((keysOf ([("a", 2), ("b", 1)] : CountMap String)).Nodup
      ∧ (keysOf ([("a", 1), ("c", 1)] : CountMap String)).Nodup
      ∧ ∀ k ∈ keysOf ([("a", 2), ("b", 1)] : CountMap String)
          ++ keysOf ([("a", 1), ("c", 1)] : CountMap String),
          -32768 ≤ getD [("a", 2), ("b", 1)] k - getD [("a", 1), ("c", 1)] k
          ∧ getD [("a", 2), ("b", 1)] k - getD [("a", 1), ("c", 1)] k ≤ 32767)
    ∧ ((∀ k, getD (diff_hashmaps [("a", 2), ("b", 1)] [("a", 1), ("c", 1)]) k
          = getD [("a", 2), ("b", 1)] k - getD [("a", 1), ("c", 1)] k)
      ∧ (∀ k : String, k ∈ keysOf (diff_hashmaps [("a", 2), ("b", 1)] [("a", 1), ("c", 1)])
          ↔ getD [("a", 2), ("b", 1)] k ≠ getD [("a", 1), ("c", 1)] k)
      ∧ diff_hashmaps ([("a", 2), ("b", 1)] : CountMap String) [("a", 2), ("b", 1)] = []) :=
  ⟨⟨by decide, by decide, by decide⟩,
    c2_diff_spec [("a", 2), ("b", 1)] [("a", 1), ("c", 1)]
      (by decide) (by decide) (by decide)⟩

/-- C3: a warning whose excerpt content is captured by the leading
Fortran-dialect group produces a Warning record identical to one whose
equal excerpt content is captured by the trailing gcc-dialect group; and
concretely, a gcc-dialect log and a Fortran-dialect log of the same
warning extract equal collections. -/
theorem c3_dialect_equivalence :
    (∀ (cwd : List PathComp) (keyword_len : Nat) (ign : List String)
        (file nm excerpt : List Char),
      warningOfCapture cwd keyword_len ign
          { file := file, text_before := some excerpt, name := nm, text_after := none }
        = warningOfCapture cwd keyword_len ign
          { file := file, text_before := none, name := nm, text_after := some excerpt })
    ∧ WarningCollection.new
        "f.c:1:2: warning: bad thing [-Wbad]\n  1 |   x = zing->zimb;\n      |  ^~" 3 [] ""
      = WarningCollection.new
        "f.c:1:2:\n\n  1 |   x = zing->zimb;\n      |  ^~\nWarning: bad thing [-Wbad]" 3 [] "" := by
  constructor
  · intro cwd keyword_len ign file nm excerpt
    rfl
  · decide

/-- C10: collection construction is a function of the content, keyword
length, ignored keywords, and the current working directory, so two calls
agreeing on all four inputs agree; and the result genuinely depends on
the working directory, which the source reads from the environment. -/
theorem c10_cwd_determinism :
    (∀ (content : String) (keyword_len : Nat) (ign : List String) (cwd1 cwd2 : String),
      cwd1 = cwd2 →
      WarningCollection.new content keyword_len ign cwd1
        = WarningCollection.new content keyword_len ign cwd2)
    ∧ WarningCollection.new "/a/b.c:1:2: warning: m [-Wx]" 2 [] "/a"
        ≠ WarningCollection.new "/a/b.c:1:2: warning: m [-Wx]" 2 [] "/x" := by
  constructor
  · intro content keyword_len ign cwd1 cwd2 h
    rw [h]
  · decide

theorem c10_cwd_determinism_witness :
    WarningCollection.new "/a/b.c:1:2: warning: m [-Wx]" 2 [] "/a"
      = WarningCollection.new "/a/b.c:1:2: warning: m [-Wx]" 2 [] "/a" :=
  c10_cwd_determinism.1 ("/a/b.c:1:2: warning: m [-Wx]") 2 [] ("/a") ("/a") rfl

/-- C5: the directory aggregation is the count aggregation under the
directory key function; that key is the parent of the warning file, which
drops the last path component, whenever the parent exists, and is the
file path itself exactly when the path has no components or ends at the
root; the key function is total, so the aggregation never fails. -/
theorem c5_directory_fallback :
    (∀ ws : List Warning, count_warning_directories ws = count_warning_fn ws dirKey)
    ∧ (∀ w : Warning,
        (∃ q, parentComps w.file = some q ∧ dirKey w = q ∧ q = w.file.dropLast)
        ∨ (parentComps w.file = none ∧ dirKey w = w.file))
    ∧ (∀ p : List PathComp,
        parentComps p = none ↔ (p = [] ∨ p.getLast? = some PathComp.rootDir)) := by
  refine ⟨fun ws => rfl, ?_, ?_⟩
  · intro w
    rcases hp : parentComps w.file with _ | q
    · right
      exact ⟨rfl, by simp [dirKey, hp]⟩
    · left
      refine ⟨q, rfl, by simp [dirKey, hp], ?_⟩
      unfold parentComps at hp
      rcases hl : w.file.getLast? with _ | c
      · rw [hl] at hp
        cases hp
      · rw [hl] at hp
        cases c with
        | rootDir => cases hp
        | curDir => exact (Option.some.inj hp).symm
        | parentDir => exact (Option.some.inj hp).symm
        | normal s => exact (Option.some.inj hp).symm
  · intro p
    unfold parentComps
    rcases hl : p.getLast? with _ | c
    · have hnil : p = [] := List.getLast?_eq_none_iff.mp hl
      simp [hnil]
    · cases c with
      | rootDir => simp
      | curDir =>
          simp only [hl]
          constructor
          · intro h
            cases h
          · intro h
            rcases h with h1 | h2
            · rw [h1] at hl
              cases hl
            · cases h2
      | parentDir =>
          simp only [hl]
          constructor
          · intro h
            cases h
          · intro h
            rcases h with h1 | h2
            · rw [h1] at hl
              cases hl
            · cases h2
      | normal s =>
          simp only [hl]
          constructor
          · intro h
            cases h
          · intro h
            rcases h with h1 | h2
            · rw [h1] at hl
              cases hl
            · cases h2

/-- C6: on the mapping of result1 to 3, result2 to 120 and result3 to 1,
with a truncation of 2 and the occurrence total, the formatter returns
exactly the expected four-line block. -/
theorem c6_format_example :
    make_warning_counts strLeB (fun s => s)
        [("result1", 3), ("result2", 120), ("result3", 1)] 2 false
      = some "120  result2\n  3  result1\n     (+1 more items)\n124  Total" := by
  decide

/-- C9: for a non-empty count mapping whose i16 count sum is positive, the
count column width equals the number of decimal digits of that sum (so at
least one digit). -/
theorem c9_column_width {K : Type} (m : CountMap K) (hne : m ≠ [])
    (hpos : 0 < sum16 m) :
    min_width m = (Nat.digits 10 (sum16 m).toNat).length := by
  unfold min_width
  have h1 : (sum16 m).toNat ≠ 0 := by omega
  exact ilog10F_digits _ _ h1 le_rfl

theorem c9_column_width_witness :
    (([(("a" : String), 5)] : CountMap String) ≠ []
      ∧ 0 < sum16 ([(("a" : String), 5)] : CountMap String))
    ∧ min_width ([(("a" : String), 5)] : CountMap String)
        = (Nat.digits 10 (sum16 ([(("a" : String), 5)] : CountMap String)).toNat).length :=
  ⟨⟨by decide, by decide⟩, c9_column_width [(("a" : String), 5)] (by decide) (by decide)⟩

/-- C4, counterexample to the claim as stated: with a truncation of 1, the
report of a two-name collection differs from the rendering in which the
truncation is also applied to the Warnings section, because the source
passes 0, not top_n, for that section; the report itself succeeds. -/
theorem c4_counterexample :
    fmtDisplay (WarningCollection.new
        "a.c:1:1: warning: m [-Wfoo]\nb.c:2:2: warning: m [-Wbar]" 5 [] "") (some 1)
      ≠ fmtDisplayClaimC4 (WarningCollection.new
        "a.c:1:1: warning: m [-Wfoo]\nb.c:2:2: warning: m [-Wbar]" 5 [] "") (some 1)
    ∧ (fmtDisplay (WarningCollection.new
        "a.c:1:1: warning: m [-Wfoo]\nb.c:2:2: warning: m [-Wbar]" 5 [] "") (some 1)).isSome
      = true := by
  refine ⟨by decide, by decide⟩

/-- C4, amended: every successful rendering of a collection is exactly the
four labeled sections Warnings, Files, Directories, Keywords separated by
blank lines, with the Files, Directories and Keywords sections each
produced at the given truncation independently, while the Warnings
section is always produced untruncated. -/
theorem c4_report_sections (col : WarningCollection) (prec : Option Nat) (r : String)
    (h : fmtDisplay col prec = some r) :
    ∃ s1 s2 s3 s4,
      make_warning_counts strLeB (fun s => s) col.names 0 false = some s1
      ∧ make_warning_counts pathLeB dispPath col.files (prec.getD 10) true = some s2
      ∧ make_warning_counts pathLeB dispPath col.directories (prec.getD 10) true = some s3
      ∧ make_warning_counts strLeB (fun s => s) col.keywords (prec.getD 10) true = some s4
      ∧ r = "Warnings:\n" ++ s1 ++ "\n\nFiles:\n" ++ s2 ++ "\n\nDirectories:\n" ++ s3
          ++ "\n\nKeywords:\n" ++ s4 ++ "\n" := by
  simp only [fmtDisplay] at h
  rcases h1 : make_warning_counts strLeB (fun s => s) col.names 0 false with _ | s1 <;>
    rw [h1] at h
  · cases h
  rcases h2 : make_warning_counts pathLeB dispPath col.files (prec.getD 10) true
      with _ | s2 <;> rw [h2] at h
  · cases h
  rcases h3 : make_warning_counts pathLeB dispPath col.directories (prec.getD 10) true
      with _ | s3 <;> rw [h3] at h
  · cases h
  rcases h4 : make_warning_counts strLeB (fun s => s) col.keywords (prec.getD 10) true
      with _ | s4 <;> rw [h4] at h
  · cases h
  exact ⟨s1, s2, s3, s4, rfl, rfl, rfl, rfl, (Option.some.inj h).symm⟩

theorem c4_report_sections_witness :
    (fmtDisplay (WarningCollection.new "no warnings here" 5 [] "") none
      = some "Warnings:\n\n\nFiles:\n\n\nDirectories:\n\n\nKeywords:\n\n")
    ∧ ∃ s1 s2 s3 s4,
      make_warning_counts strLeB (fun s => s)
          (WarningCollection.new "no warnings here" 5 [] "").names 0 false = some s1
      ∧ make_warning_counts pathLeB dispPath
          (WarningCollection.new "no warnings here" 5 [] "").files ((none : Option Nat).getD 10)
          true = some s2
      ∧ make_warning_counts pathLeB dispPath
          (WarningCollection.new "no warnings here" 5 [] "").directories
          ((none : Option Nat).getD 10) true = some s3
      ∧ make_warning_counts strLeB (fun s => s)
          (WarningCollection.new "no warnings here" 5 [] "").keywords
          ((none : Option Nat).getD 10) true = some s4
      ∧ "Warnings:\n\n\nFiles:\n\n\nDirectories:\n\n\nKeywords:\n\n"
          = "Warnings:\n" ++ s1 ++ "\n\nFiles:\n" ++ s2 ++ "\n\nDirectories:\n" ++ s3
            ++ "\n\nKeywords:\n" ++ s4 ++ "\n" :=
  ⟨by decide,
    c4_report_sections (WarningCollection.new "no warnings here" 5 [] "") none
      ("Warnings:\n\n\nFiles:\n\n\nDirectories:\n\n\nKeywords:\n\n") (by decide)⟩

/-- C7, counterexample to the tie-break as stated: two path keys of equal
count are rendered with a/b before a-b although the text form a-b is
lexicographically smaller, because the sort compares paths componentwise
rather than by their text form. -/
theorem c7_counterexample :
    make_warning_counts pathLeB dispPath
        [(parsePath ("a-b").data, 1), (parsePath ("a/b").data, 1)] 0 false
      = some "1  a/b\n1  a-b\n2  Total"
    ∧ strLtB (dispPath (parsePath ("a-b").data)) (dispPath (parsePath ("a/b").data)) = true
    ∧ dispPath (parsePath ("a-b").data) ≠ dispPath (parsePath ("a/b").data) := by
  refine ⟨by decide, by decide, by decide⟩

/-- C7, amended: for every non-empty count mapping, the entry list the
formatter renders is a permutation of the mapping sorted by count
descending with ties broken by the key order ascending: byte-lexicographic
order for string keys and componentwise order for path keys (not the text
form of the path, see the counterexample). -/
theorem c7_sort_order :
    (∀ m : CountMap String, m ≠ [] →
      (sortEntries strLeB m).Sorted
          (fun a b => b.2 < a.2 ∨ (a.2 = b.2 ∧ strLeB a.1 b.1 = true))
      ∧ (sortEntries strLeB m).Perm m)
    ∧ (∀ m : CountMap (List PathComp), m ≠ [] →
      (sortEntries pathLeB m).Sorted
          (fun a b => b.2 < a.2 ∨ (a.2 = b.2 ∧ pathLeB a.1 b.1 = true))
      ∧ (sortEntries pathLeB m).Perm m) := by
  constructor
  · intro m _
    constructor
    · haveI ht : IsTotal (String × Int) (fun a b => pairLE strLeB a b = true) :=
        ⟨pairLE_total strLeB strLeB_total⟩
      haveI htr : IsTrans (String × Int) (fun a b => pairLE strLeB a b = true) :=
        ⟨pairLE_trans strLeB strLeB_trans⟩
      apply List.Pairwise.imp ?_ (List.sorted_insertionSort _ m)
      intro a b hab
      by_cases h : a.2 = b.2
      · right
        exact ⟨h, by simpa [pairLE, h] using hab⟩
      · left
        have h2 := hab
        simp [pairLE, h] at h2
        exact h2
    · exact List.perm_insertionSort _ m
  · intro m _
    constructor
    · haveI ht : IsTotal (List PathComp × Int) (fun a b => pairLE pathLeB a b = true) :=
        ⟨pairLE_total pathLeB pathLeB_total⟩
      haveI htr : IsTrans (List PathComp × Int) (fun a b => pairLE pathLeB a b = true) :=
        ⟨pairLE_trans pathLeB pathLeB_trans⟩
      apply List.Pairwise.imp ?_ (List.sorted_insertionSort _ m)
      intro a b hab
      by_cases h : a.2 = b.2
      · right
        exact ⟨h, by simpa [pairLE, h] using hab⟩
      · left
        have h2 := hab
        simp [pairLE, h] at h2
        exact h2
    · exact List.perm_insertionSort _ m

theorem c7_sort_order_witness :
    (([(("a" : String), 1), (("b" : String), 2)] : CountMap String) ≠ []
      ∧ ([([PathComp.normal "a"], 1)] : CountMap (List PathComp)) ≠ [])
    ∧ ((sortEntries strLeB [(("a" : String), 1), (("b" : String), 2)]).Sorted
          (fun a b => b.2 < a.2 ∨ (a.2 = b.2 ∧ strLeB a.1 b.1 = true))
      ∧ (sortEntries strLeB [(("a" : String), 1), (("b" : String), 2)]).Perm
          [(("a" : String), 1), (("b" : String), 2)])
    ∧ ((sortEntries pathLeB [([PathComp.normal "a"], 1)]).Sorted
          (fun a b => b.2 < a.2 ∨ (a.2 = b.2 ∧ pathLeB a.1 b.1 = true))
      ∧ (sortEntries pathLeB [([PathComp.normal "a"], 1)]).Perm
          [([PathComp.normal "a"], 1)]) :=
  ⟨⟨by decide, by decide⟩,
    c7_sort_order.1 [(("a" : String), 1), (("b" : String), 2)] (by decide),
    c7_sort_order.2 [([PathComp.normal "a"], 1)] (by decide)⟩

/-- C8: the keyword extractor returns exactly the maximal identifier-shaped
runs of the excerpt (starting with a letter or underscore, at least two
characters), kept when at least min_len long and not an exact match of an
ignored keyword, in order of occurrence with duplicates preserved, as the
spec-level description by maximal runs states. -/
theorem c8_keyword_extraction (text : String) (min_len : Nat) (ignored : List String) :
    make_keywords text min_len ignored = keywordsSpec text min_len ignored := by
  unfold make_keywords keywordsSpec
  rw [tokenRuns_eq_chunks]
